import Mathlib

/-!
Verification development for the MonkeyType type-inference and type-shrinking
core (`monkeytype/typing.py`).

The runtime type algebra manipulated by the Python code (typing generics,
anonymous TypedDicts, unions, nominal classes) is shallowly embedded as the
inductive `Ty` below, following the data model of the specification:

* `Ty.any` — `typing.Any`;
* `Ty.nominal c` — a concrete class, identified by a numeric class id
  (`object` is class id 0, `type(None)` is 1, `int` is 2, `str` is 3);
* `Ty.metaType c` — `type[c]`;
* `Ty.callable` — the opaque `Callable` marker;
* `Ty.container k es` — a generic container alias of kind `k` applied to
  element types `es` (`List`, `Set`, `Dict`, `DefaultDict`, fixed and
  variadic `Tuple`, `Iterator`, and `Generator` with its three parameters);
* `Ty.record req opt` — an anonymous TypedDict produced by
  `make_typed_dict`, with ordered required and optional field maps
  (association lists, mirroring Python dict insertion order);
* `Ty.union ms` — a union with its ordered member list;
* `Ty.typeVar n` — an unbound `TypeVar`.

Recursive Python functions are embedded as fuel-indexed Lean functions
(structural recursion on the fuel): the Python recursion terminates on the
finite values/types it is given, and every theorem below either holds for
all fuel values or carries a hypothesis that is false when the fuel is
insufficient, so the fuel is only a termination witness.  Class hierarchy
queries (`__bases__`, `inspect.getmro`, `issubclass`) are host-runtime
introspection; they are abstracted by the `Hier` structure, where
`issubclass t anc` holds exactly when `anc` occurs in `t`'s method
resolution order, which is how `issubclass` behaves for ordinary classes.
-/

inductive CKind where
  | list | set | dict | defaultDict | tupleF | tupleV | iterator | generator
deriving DecidableEq, Repr

inductive Ty where
  | any
  | callable
  | nominal (c : Nat)
  | metaType (c : Nat)
  | typeVar (n : String)
  | container (k : CKind) (es : List Ty)
  | record (req opt : List (String × Ty))
  | union (ms : List Ty)
deriving Repr

mutual

/-- Structural (syntactic) equality of embedded types, as a boolean test.
This models the structural-equality identity predicate (`types_equal` /
`==` on type objects) of the compat layer on the embedded algebra. -/
def Ty.beq : Ty → Ty → Bool
  | .any, .any => true
  | .callable, .callable => true
  | .nominal c, .nominal c' => c == c'
  | .metaType c, .metaType c' => c == c'
  | .typeVar n, .typeVar n' => n == n'
  | .container k es, .container k' es' => k == k' && Ty.beqList es es'
  | .record r o, .record r' o' => Ty.beqFields r r' && Ty.beqFields o o'
  | .union ms, .union ns => Ty.beqList ms ns
  | _, _ => false

def Ty.beqList : List Ty → List Ty → Bool
  | [], [] => true
  | a :: as, b :: bs => Ty.beq a b && Ty.beqList as bs
  | _, _ => false

def Ty.beqFields : List (String × Ty) → List (String × Ty) → Bool
  | [], [] => true
  | (k, v) :: r, (k', v') :: r' => k == k' && Ty.beq v v' && Ty.beqFields r r'
  | _, _ => false

end

instance : BEq Ty := ⟨Ty.beq⟩

mutual

theorem Ty.beq_iff : ∀ a b : Ty, Ty.beq a b = true ↔ a = b
  | .any, b => by cases b <;> simp [Ty.beq]
  | .callable, b => by cases b <;> simp [Ty.beq]
  | .nominal c, b => by cases b <;> simp [Ty.beq]
  | .metaType c, b => by cases b <;> simp [Ty.beq]
  | .typeVar n, b => by cases b <;> simp [Ty.beq]
  | .container k es, b => by
      cases b <;> simp [Ty.beq]
      intro _
      exact Ty.beqList_iff es _
  | .record r o, b => by
      cases b <;> simp [Ty.beq]
      rw [Ty.beqList_iff', Ty.beqList_iff']
  | .union ms, b => by
      cases b <;> simp [Ty.beq]
      exact Ty.beqList_iff ms _

theorem Ty.beqList_iff : ∀ as bs : List Ty, Ty.beqList as bs = true ↔ as = bs
  | [], bs => by cases bs <;> simp [Ty.beqList]
  | a :: as, bs => by
      cases bs with
      | nil => simp [Ty.beqList]
      | cons b bs => simp [Ty.beqList, Ty.beq_iff a b, Ty.beqList_iff as bs]

theorem Ty.beqList_iff' : ∀ as bs : List (String × Ty), Ty.beqFields as bs = true ↔ as = bs
  | [], bs => by cases bs <;> simp [Ty.beqFields]
  | (k, v) :: as, bs => by
      cases bs with
      | nil => simp [Ty.beqFields]
      | cons b bs =>
          obtain ⟨k', v'⟩ := b
          simp [Ty.beqFields, Ty.beq_iff v v', Ty.beqList_iff' as bs]

end

instance : DecidableEq Ty := fun a b =>
  decidable_of_iff (Ty.beq a b = true) (Ty.beq_iff a b)

instance : LawfulBEq Ty where
  eq_of_beq h := (Ty.beq_iff _ _).1 h
  rfl := (Ty.beq_iff _ _).2 rfl

/-- Class id of Python's `object`, the universal root of the class graph. -/
def object_id : Nat := 0

/-- Class id of `type(None)`. -/
def none_type_id : Nat := 1

/-- Class id of `int`. -/
def int_id : Nat := 2

/-- Class id of `str`. -/
def str_id : Nat := 3

def intTy : Ty := .nominal int_id

def strTy : Ty := .nominal str_id

def noneTy : Ty := .nominal none_type_id

/-- The class-hierarchy oracle: for each class id, its list of direct bases
(`__bases__`) and its method resolution order (`inspect.getmro`), which for
ordinary classes starts with the class itself and ends with `object`.
`issubclass t anc` is modelled as `anc ∈ mro t`. -/
structure Hier where
  bases : Nat → List Nat
  mro : Nat → List Nat

/-- `is_anonymous_typed_dict`: true for the anonymous TypedDicts generated by
MonkeyType, which are exactly the `Ty.record` nodes of this embedding. -/
def is_anonymous_typed_dict : Ty → Bool
  | .record _ _ => true
  | _ => false

/-- `is_list`: a generic alias of kind `List`. -/
def is_list : Ty → Bool
  | .container .list _ => true
  | _ => false

/-- First type argument of a `List` alias (`typ.__args__[0]`).  Only applied
to subscripted `List` aliases, which always have exactly one argument. -/
def list_arg : Ty → Ty
  | .container .list (e :: _) => e
  | _ => .any

/-- `make_typed_dict`: build an anonymous TypedDict from a required and an
optional field map (its `assert required.isdisjoint(optional)` is modelled
separately by `typed_dict_fields_disjoint`). -/
def make_typed_dict (required_fields optional_fields : List (String × Ty)) : Ty :=
  .record required_fields optional_fields

/-- The disjointness assertion checked by `make_typed_dict`:
`required_fields.keys().isdisjoint(optional_fields.keys())`. -/
def typed_dict_fields_disjoint (required_fields optional_fields : List (String × Ty)) : Bool :=
  required_fields.all fun kv => !(optional_fields.any fun kv' => kv'.1 == kv.1)

def required_fields_of : Ty → List (String × Ty)
  | .record r _ => r
  | _ => []

def optional_fields_of : Ty → List (String × Ty)
  | .record _ o => o
  | _ => []

/-- Keep-first deduplication of a member list by structural equality, as the
host `Union[...]` constructor performs (the specification: "members
deduplicated by structural equality"). -/
def dedup_keep_first (ts : List Ty) : List Ty :=
  ts.foldl (fun acc t => if acc.contains t then acc else acc ++ [t]) []

/-- The host `Union[tuple(ts)]` constructor: flatten union members, remove
duplicates keeping the first occurrence, and collapse a singleton union to
its only member.  (It is never applied to an empty list by the code.) -/
def make_union (ts : List Ty) : Ty :=
  let flat := (ts.map fun t => match t with | .union ms => ms | t => [t]).flatten
  match dedup_keep_first flat with
  | [x] => x
  | l => .union l

/-- One step of `defaultdict(list)` accumulation: append `v` to the entry of
key `k`, creating the entry at the end in insertion order if absent (the
key occurs at most once, as in the Python dict being modelled). -/
def append_value : List (String × List Ty) → String → Ty → List (String × List Ty)
  | [], k, v => [(k, [v])]
  | kv :: rest, k, v =>
      if kv.1 == k then (kv.1, kv.2 ++ [v]) :: rest
      else kv :: append_value rest k v

/-- Fold a list of (key, value-type) items into a `defaultdict(list)`
accumulator. -/
def add_entries (base : List (String × List Ty)) (items : List (String × Ty)) :
    List (String × List Ty) :=
  items.foldl (fun a kv => append_value a kv.1 kv.2) base

/-- `key_value_types_dict` of `shrink_typed_dict_types`: for each field name
occurring as required in some TypedDict, the list of its required value
types, one per TypedDict in which it occurs, in insertion order. -/
def key_value_types (typed_dicts : List Ty) : List (String × List Ty) :=
  typed_dicts.foldl (fun acc td => add_entries acc (required_fields_of td)) []

/-- `existing_optional_fields` of `shrink_typed_dict_types`: all optional
field items of the input TypedDicts, concatenated in order. -/
def existing_optional_fields (typed_dicts : List Ty) : List (String × Ty) :=
  typed_dicts.foldl (fun acc td => acc ++ optional_fields_of td) []

/-- The `required_fields` result map of `shrink_typed_dict_types` (before the
per-field shrink): entries of `key_value_types_dict` whose value count equals
the number of input TypedDicts. -/
def required_result (typed_dicts : List Ty) : List (String × List Ty) :=
  (key_value_types typed_dicts).filter fun kv => kv.2.length == typed_dicts.length

/-- The `optional_fields` result map of `shrink_typed_dict_types` (before the
per-field shrink): entries of `key_value_types_dict` whose value count
differs from the number of input TypedDicts, extended by all existing
optional field items. -/
def optional_result (typed_dicts : List Ty) : List (String × List Ty) :=
  add_entries
    ((key_value_types typed_dicts).filter fun kv => kv.2.length != typed_dicts.length)
    (existing_optional_fields typed_dicts)

/-- The size-cap test `len(required_fields) + len(optional_fields) >
max_typed_dict_size`.  An unset cap (`None`) never demotes; the code is only
ever called with an integer cap when TypedDicts are present. -/
def cap_exceeded (max_typed_dict_size : Option Nat) (n : Nat) : Bool :=
  match max_typed_dict_size with
  | some m => m < n
  | none => false

/-- Which generic container kinds the rewriting engine recurses into: the
visitor has `rewrite_Dict/List/Set/Tuple/Generator` hooks, but no
`DefaultDict` or `Iterator` hook, so those two kinds are returned unchanged
by `generic_rewrite`. -/
def container_recursed : CKind → Bool
  | .defaultDict => false
  | .iterator => false
  | _ => true

/-- `RewriteAnonymousTypedDictToDict.rewrite`: anonymous TypedDicts become
`Dict[str, Union[value types]]` (or `Dict[Any, Any]` when they have no
fields); other shapes are traversed by the generic engine.  Union members
are not traversed: the inherited `rewrite_Union` rebuilds the union as a
PEP 604 union, whose `__module__` is not `"typing"`, so it is routed to the
`rewrite_malformed_container` fallback and returned unchanged.
  The container branch here over-approximates traversal: the source's
`_rewrite_container` begins with `container.__module__ != "typing"` and
returns aliases defined outside the `typing` module (the PEP 585 builtins
aliases) unchanged; the module-faithful embedding lives in the `Mod`
namespace below and is what the pipeline-idempotence claim is proved
about. -/
def RewriteAnonymousTypedDictToDict.rewrite : Nat → Ty → Ty
  | 0, t => t
  | fuel+1, t =>
    match t with
    | .record r o =>
        let all_value_types := r.map (·.2) ++ o.map (·.2)
        if all_value_types.isEmpty then .container .dict [.any, .any]
        else
          .container .dict
            [strTy, make_union (all_value_types.map (RewriteAnonymousTypedDictToDict.rewrite fuel))]
    | .union ms => .union ms
    | .container k es =>
        if container_recursed k then
          .container k (es.map (RewriteAnonymousTypedDictToDict.rewrite fuel))
        else .container k es
    | t => t

/-- `shrink_types` (with `shrink_typed_dict_types` inlined as its first
branch; see `shrink_typed_dict_types` below for the named form): return the
smallest type equivalent to the union of `types`. -/
def shrink_types : Nat → List Ty → Option Nat → Ty
  | 0, _, _ => .any
  | fuel+1, types, max_typed_dict_size =>
    match types with
    | [] => .any
    | t0 :: rest =>
      if (t0 :: rest).all is_anonymous_typed_dict then
        let required := required_result (t0 :: rest)
        let optional := optional_result (t0 :: rest)
        if cap_exceeded max_typed_dict_size (required.length + optional.length) then
          .container .dict
            [strTy,
             shrink_types fuel ((required.map (·.2) ++ optional.map (·.2)).flatten)
               max_typed_dict_size]
        else
          make_typed_dict
            (required.map fun kv => (kv.1, shrink_types fuel kv.2 max_typed_dict_size))
            (optional.map fun kv => (kv.1, shrink_types fuel kv.2 max_typed_dict_size))
      else if rest.all (· == t0) then t0
      else if (t0 :: rest).all is_list then
        .container .list
          [shrink_types fuel ((t0 :: rest).map list_arg) max_typed_dict_size]
      else
        make_union ((t0 :: rest).map (RewriteAnonymousTypedDictToDict.rewrite fuel))

/-- `shrink_typed_dict_types`: merge a list of anonymous TypedDicts into a
single TypedDict of required and optional fields, or demote to
`dict[str, ...]` when the merged field count exceeds the cap. -/
def shrink_typed_dict_types (fuel : Nat) (typed_dicts : List Ty)
    (max_typed_dict_size : Option Nat) : Ty :=
  let required := required_result typed_dicts
  let optional := optional_result typed_dicts
  if cap_exceeded max_typed_dict_size (required.length + optional.length) then
    .container .dict
      [strTy,
       shrink_types fuel ((required.map (·.2) ++ optional.map (·.2)).flatten)
         max_typed_dict_size]
  else
    make_typed_dict
      (required.map fun kv => (kv.1, shrink_types fuel kv.2 max_typed_dict_size))
      (optional.map fun kv => (kv.1, shrink_types fuel kv.2 max_typed_dict_size))

theorem shrink_types_all_typed_dicts (fuel : Nat) (types : List Ty)
    (cap : Option Nat) (h0 : types ≠ [])
    (h : types.all is_anonymous_typed_dict = true) :
    shrink_types (fuel+1) types cap = shrink_typed_dict_types fuel types cap := by
  match types with
  | [] => exact absurd rfl h0
  | t0 :: rest => simp only [shrink_types, shrink_typed_dict_types, h, if_true]

/-- Runtime values observed by the Value Inspector (the subset of Python
values needed here: `None`, ints, strings, lists, sets, tuples and dicts). -/
inductive Value where
  | vNone
  | vInt (n : Int)
  | vStr (s : String)
  | vList (xs : List Value)
  | vSet (xs : List Value)
  | vTuple (xs : List Value)
  | vDict (pairs : List (Value × Value))

/-- Is this runtime value a string (`isinstance(k, str)`)? -/
def Value.isStr : Value → Bool
  | .vStr _ => true
  | _ => false

def Value.strVal : Value → String
  | .vStr s => s
  | _ => ""

/-- The all-text-keys-and-fits test of `get_dict_type`:
`max_typed_dict_size is None or len(dct) <= max_typed_dict_size`. -/
def dict_fits (max_typed_dict_size : Option Nat) (n : Nat) : Bool :=
  match max_typed_dict_size with
  | none => true
  | some m => n ≤ m

/-- `get_type`: the static type inferred for a runtime value.  Dicts are
delegated to the `get_dict_type` logic (stated separately as
`get_dict_type`); sets and lists shrink their element types; tuples are
positional. -/
def get_type : Nat → Option Nat → Value → Ty
  | 0, _, _ => .any
  | fuel+1, max_typed_dict_size, v =>
    match v with
    | .vNone => noneTy
    | .vInt _ => intTy
    | .vStr _ => strTy
    | .vList xs =>
        .container .list
          [shrink_types fuel (xs.map (get_type fuel max_typed_dict_size)) max_typed_dict_size]
    | .vSet xs =>
        .container .set
          [shrink_types fuel (xs.map (get_type fuel max_typed_dict_size)) max_typed_dict_size]
    | .vTuple xs => .container .tupleF (xs.map (get_type fuel max_typed_dict_size))
    | .vDict pairs =>
        if pairs.isEmpty then .container .dict [.any, .any]
        else if pairs.all (fun p => p.1.isStr) && dict_fits max_typed_dict_size pairs.length then
          make_typed_dict
            (pairs.map fun p => (p.1.strVal, get_type fuel max_typed_dict_size p.2)) []
        else
          .container .dict
            [shrink_types fuel (pairs.map fun p => get_type fuel max_typed_dict_size p.1)
               max_typed_dict_size,
             shrink_types fuel (pairs.map fun p => get_type fuel max_typed_dict_size p.2)
               max_typed_dict_size]

/-- `get_dict_type`: a TypedDict for `dct` when all keys are strings and the
field count fits under the cap, `Dict[Any, Any]` for the empty dict, and the
shrunk key/value `Dict` otherwise. -/
def get_dict_type (fuel : Nat) (max_typed_dict_size : Option Nat)
    (pairs : List (Value × Value)) : Ty :=
  if pairs.isEmpty then .container .dict [.any, .any]
  else if pairs.all (fun p => p.1.isStr) && dict_fits max_typed_dict_size pairs.length then
    make_typed_dict
      (pairs.map fun p => (p.1.strVal, get_type fuel max_typed_dict_size p.2)) []
  else
    .container .dict
      [shrink_types fuel (pairs.map fun p => get_type fuel max_typed_dict_size p.1)
         max_typed_dict_size,
       shrink_types fuel (pairs.map fun p => get_type fuel max_typed_dict_size p.2)
         max_typed_dict_size]

theorem get_type_dict (fuel : Nat) (cap : Option Nat) (pairs : List (Value × Value)) :
    get_type (fuel+1) cap (.vDict pairs) = get_dict_type fuel cap pairs := rfl

/-- `RemoveEmptyContainers._is_empty`: the node has a non-empty `__args__`
all of whose entries are `Any`. -/
def RemoveEmptyContainers.is_empty : Ty → Bool
  | .container _ es => !es.isEmpty && es.all (· == Ty.any)
  | .union ms => !ms.isEmpty && ms.all (· == Ty.any)
  | _ => false

/-- `RemoveEmptyContainers.rewrite`: its `rewrite_Union` computes the
rewritten non-empty members `elems`, but when `elems` is non-empty it
rebuilds the result from `get_args(union)` — the original member list,
empty containers included — so the union comes back with all of its original
members; when `elems` is empty the original union object is returned.
  The container branch here over-approximates traversal: the source's
`_rewrite_container` begins with `container.__module__ != "typing"` and
returns aliases defined outside the `typing` module (the PEP 585 builtins
aliases) unchanged; the module-faithful embedding lives in the `Mod`
namespace below and is what the pipeline-idempotence claim is proved
about. -/
def RemoveEmptyContainers.rewrite : Nat → Ty → Ty
  | 0, t => t
  | fuel+1, t =>
    match t with
    | .union ms =>
        let elems :=
          (ms.filter fun e => !RemoveEmptyContainers.is_empty e).map
            (RemoveEmptyContainers.rewrite fuel)
        if elems.isEmpty then .union ms else .union ms
    | .container k es =>
        if container_recursed k then
          .container k (es.map (RemoveEmptyContainers.rewrite fuel))
        else .container k es
    | .record r o =>
        .record (r.map fun kv => (kv.1, RemoveEmptyContainers.rewrite fuel kv.2))
          (o.map fun kv => (kv.1, RemoveEmptyContainers.rewrite fuel kv.2))
    | t => t

/-- Helper of `RewriteConfigDict.rewrite_Union`: scan the remaining union
members, requiring each to be a `Dict` with key type `key`; return their
value types. -/
def RewriteConfigDict.scan_values (key : Ty) : List Ty → Option (List Ty)
  | [] => some []
  | .container .dict [k, v] :: rest =>
      if k == key then (RewriteConfigDict.scan_values key rest).map (v :: ·) else none
  | _ => none

/-- `RewriteConfigDict.rewrite`:
`Union[Dict[K, V1], ..., Dict[K, VN]] -> Dict[K, Union[V1, ..., VN]]`;
a non-`Dict` member or a key mismatch returns the union unchanged (without
traversing its members).
  The container branch here over-approximates traversal: the source's
`_rewrite_container` begins with `container.__module__ != "typing"` and
returns aliases defined outside the `typing` module (the PEP 585 builtins
aliases) unchanged; the module-faithful embedding lives in the `Mod`
namespace below and is what the pipeline-idempotence claim is proved
about. -/
def RewriteConfigDict.rewrite : Nat → Ty → Ty
  | 0, t => t
  | fuel+1, t =>
    match t with
    | .union ms =>
        (match ms with
         | .container .dict [k, v] :: rest =>
            (match RewriteConfigDict.scan_values k rest with
             | some vs => .container .dict [k, make_union (v :: vs)]
             | none => .union ms)
         | _ => .union ms)
    | .container k es =>
        if container_recursed k then
          .container k (es.map (RewriteConfigDict.rewrite fuel))
        else .container k es
    | .record r o =>
        .record (r.map fun kv => (kv.1, RewriteConfigDict.rewrite fuel kv.2))
          (o.map fun kv => (kv.1, RewriteConfigDict.rewrite fuel kv.2))
    | t => t

/-- `RewriteLargeUnion._rewrite_to_tuple`: when every member is a fixed
`Tuple` whose arguments are all (identical to) the first tuple's first
argument, collapse to the variadic `Tuple[V, ...]`.  An empty fixed tuple
never matches: its `__args__` is `((),)`, whose entry is not a type. -/
def RewriteLargeUnion.rewrite_to_tuple (ms : List Ty) : Option Ty :=
  match ms with
  | .container .tupleF (v0 :: vs) :: rest =>
      if (v0 :: vs).all (· == v0)
         && rest.all (fun t =>
              match t with
              | .container .tupleF es => !es.isEmpty && es.all (· == v0)
              | _ => false)
      then some (.container .tupleV [v0]) else none
  | _ => none

/-- The class id of a union member, when the member is a plain class.
`inspect.getmro` and `issubclass` raise `TypeError`/`AttributeError` on any
other member, which `RewriteLargeUnion.rewrite_Union` catches and turns into
`Any` (an ancestor can only be returned after every member, including a
non-class one, has passed an `issubclass` check, so a non-class member
always ends in the `except` branch). -/
def as_class : Ty → Option Nat
  | .nominal c => some c
  | _ => none

/-- `RewriteLargeUnion.rewrite`: unions of at most `max_union_len` members
pass through unchanged (members untraversed); larger unions collapse to a
variadic tuple, else to the first class of `inspect.getmro` of the first
member (excluding `object`) of which every member is a subclass, else to
`Any`.
  The container branch here over-approximates traversal: the source's
`_rewrite_container` begins with `container.__module__ != "typing"` and
returns aliases defined outside the `typing` module (the PEP 585 builtins
aliases) unchanged; the module-faithful embedding lives in the `Mod`
namespace below and is what the pipeline-idempotence claim is proved
about. -/
def RewriteLargeUnion.rewrite (H : Hier) (max_union_len : Nat) : Nat → Ty → Ty
  | 0, t => t
  | fuel+1, t =>
    match t with
    | .union ms =>
        if ms.length ≤ max_union_len then .union ms
        else
          (match RewriteLargeUnion.rewrite_to_tuple ms with
           | some rw => rw
           | none =>
             match ms.mapM as_class with
             | some (k0 :: ks) =>
                 (match (H.mro k0).find?
                     (fun anc => anc != object_id
                       && (k0 :: ks).all fun c => (H.mro c).contains anc) with
                  | some anc => .nominal anc
                  | none => .any)
             | _ => .any)
    | .container k es =>
        if container_recursed k then
          .container k (es.map (RewriteLargeUnion.rewrite H max_union_len fuel))
        else .container k es
    | .record r o =>
        .record (r.map fun kv => (kv.1, RewriteLargeUnion.rewrite H max_union_len fuel kv.2))
          (o.map fun kv => (kv.1, RewriteLargeUnion.rewrite H max_union_len fuel kv.2))
    | t => t

/-- `RewriteGenerator.rewrite`: `Generator[Y, None, None] -> Iterator[Y]`,
anything else unchanged; in both branches of `rewrite_Generator` the
element types are not traversed, and union members are likewise left
untraversed (inherited `rewrite_Union` falls into the malformed-container
fallback).
  The container branch here over-approximates traversal: the source's
`_rewrite_container` begins with `container.__module__ != "typing"` and
returns aliases defined outside the `typing` module (the PEP 585 builtins
aliases) unchanged; the module-faithful embedding lives in the `Mod`
namespace below and is what the pipeline-idempotence claim is proved
about. -/
def RewriteGenerator.rewrite : Nat → Ty → Ty
  | 0, t => t
  | fuel+1, t =>
    match t with
    | .container .generator [y, s, r] =>
        if s == noneTy && r == noneTy then .container .iterator [y]
        else .container .generator [y, s, r]
    | .union ms => .union ms
    | .container k es =>
        if container_recursed k then
          .container k (es.map (RewriteGenerator.rewrite fuel))
        else .container k es
    | .record r o =>
        .record (r.map fun kv => (kv.1, RewriteGenerator.rewrite fuel kv.2))
          (o.map fun kv => (kv.1, RewriteGenerator.rewrite fuel kv.2))
    | t => t

/-- `DEFAULT_REWRITER`: the `ChainedRewriter` applying, in order,
`RemoveEmptyContainers`, `RewriteConfigDict`, `RewriteLargeUnion` (threshold
5) and `RewriteGenerator`, each exactly once. -/
def DEFAULT_REWRITER.rewrite (H : Hier) (fuel : Nat) (t : Ty) : Ty :=
  RewriteGenerator.rewrite fuel
    (RewriteLargeUnion.rewrite H 5 fuel
      (RewriteConfigDict.rewrite fuel
        (RemoveEmptyContainers.rewrite fuel t)))

/-- The pre-reversal walk of `RewriteMostSpecificCommonBase._compute_bases`:
starting from `klass`, append the current class and walk to its unique
direct base, stopping before `object` and stopping after appending a class
with zero or several direct bases. -/
def RewriteMostSpecificCommonBase.walk_bases (H : Hier) : Nat → Nat → List Nat
  | 0, _ => []
  | fuel+1, klass =>
      if klass == object_id then []
      else
        klass ::
          (match H.bases klass with
           | [b] => RewriteMostSpecificCommonBase.walk_bases H fuel b
           | _ => [])

/-- `RewriteMostSpecificCommonBase._compute_bases`: the single-inheritance
ancestor chain of `klass`, ordered general to specific, ending with `klass`
itself. -/
def RewriteMostSpecificCommonBase.compute_bases (H : Hier) (fuel : Nat) (klass : Nat) :
    List Nat :=
  (RewriteMostSpecificCommonBase.walk_bases H fuel klass).reverse

/-- `RewriteMostSpecificCommonBase._merge_common_bases`: the longest common
prefix of two chains (pairwise walk, stopping at the first mismatch). -/
def RewriteMostSpecificCommonBase.merge_common_bases (first_bases second_bases : List Nat) :
    List Nat :=
  ((first_bases.zip second_bases).takeWhile fun p => p.1 == p.2).map (·.1)

/-- `RewriteMostSpecificCommonBase.rewrite_Union`: fold the members' chains
with `merge_common_bases` and return the most specific (last) common base,
or the union unchanged if there is none.  `none` models the uncaught
`AttributeError` raised when a member is not a class (`klass.__bases__`). -/
def RewriteMostSpecificCommonBase.rewrite_Union (H : Hier) (fuel : Nat) (ms : List Ty) :
    Option Ty :=
  match ms.mapM as_class with
  | none => none
  | some [] => none
  | some (k :: ks) =>
      let common_bases :=
        (ks.map (RewriteMostSpecificCommonBase.compute_bases H fuel)).foldl
          RewriteMostSpecificCommonBase.merge_common_bases
          (RewriteMostSpecificCommonBase.compute_bases H fuel k)
      match common_bases.getLast? with
      | some a => some (.nominal a)
      | none => some (.union ms)

/-- Association-list key membership (`key in dct`). -/
def has_key {α : Type} (k : String) (acc : List (String × α)) : Bool :=
  acc.any (·.1 == k)

/-- Association-list lookup of a `defaultdict(list)` accumulator: the value
list stored under `k`, or `[]` when absent. -/
def entry_vals (k : String) : List (String × List Ty) → List Ty
  | [] => []
  | kv :: rest => if kv.1 == k then kv.2 else entry_vals k rest

/-- No key occurs twice, as in a Python dict. -/
def nodup_keys {α : Type} : List (String × α) → Bool
  | [] => true
  | kv :: rest => !(rest.any (·.1 == kv.1)) && nodup_keys rest

/-- Does field name `k` appear as a required field of the TypedDict `td`? -/
def required_in (k : String) (td : Ty) : Bool :=
  (required_fields_of td).any (·.1 == k)

/-- Does field name `k` appear as an optional field of the TypedDict `td`? -/
def optional_in (k : String) (td : Ty) : Bool :=
  (optional_fields_of td).any (·.1 == k)

/-- All value types observed for field name `k` as a required field across
`typed_dicts`, in input order. -/
def collected_required (k : String) (typed_dicts : List Ty) : List Ty :=
  (typed_dicts.map fun td => ((required_fields_of td).filter (·.1 == k)).map (·.2)).flatten

/-- All value types observed for field name `k` as an optional field across
`typed_dicts`, in input order. -/
def collected_optional (k : String) (typed_dicts : List Ty) : List Ty :=
  (typed_dicts.map fun td => ((optional_fields_of td).filter (·.1 == k)).map (·.2)).flatten

/-- Sufficient condition for `shrink_types` to return a singleton input
unchanged: every anonymous TypedDict reachable through TypedDict field
values (including the type itself, if it is one) has duplicate-free field
names and a merged field count within the cap.  The fuel-0 case is `false`,
so the predicate also certifies that the fuel suffices for the recursion. -/
def records_ok : Nat → Option Nat → Ty → Bool
  | 0, _, _ => false
  | fuel+1, cap, t =>
    match t with
    | .record r o =>
        nodup_keys r && nodup_keys o && !cap_exceeded cap (r.length + o.length)
          && (r.map (·.2) ++ o.map (·.2)).all (records_ok fuel cap)
    | _ => true

mutual

/-- Structural equality of embedded types in the sense of the specification's
data model, where a `Union` carries a set of members and a record's field
maps are mappings: unions are compared by mutual membership of
equivalent members, records field-map-wise, containers pointwise.  This is
how the host compares type objects (`Union.__eq__` is frozenset-based,
TypedDict field maps are dicts). -/
inductive TyEquiv : Ty → Ty → Prop where
  | refl (a : Ty) : TyEquiv a a
  | container (k : CKind) (es es' : List Ty) (hlen : es.length = es'.length)
      (h : ∀ p ∈ es.zip es', TyEquiv p.1 p.2) :
      TyEquiv (.container k es) (.container k es')
  | record (r r' o o' : List (String × Ty))
      (hr1 : ∀ kv ∈ r, TyEquivField kv.1 kv.2 r')
      (hr2 : ∀ kv ∈ r', TyEquivField kv.1 kv.2 r)
      (ho1 : ∀ kv ∈ o, TyEquivField kv.1 kv.2 o')
      (ho2 : ∀ kv ∈ o', TyEquivField kv.1 kv.2 o) :
      TyEquiv (.record r o) (.record r' o')
  | union (ms ns : List Ty)
      (h1 : ∀ m ∈ ms, TyEquivMem m ns)
      (h2 : ∀ n ∈ ns, TyEquivMem n ms) :
      TyEquiv (.union ms) (.union ns)

/-- Membership of a type in a member list up to `TyEquiv`. -/
inductive TyEquivMem : Ty → List Ty → Prop where
  | head (m n : Ty) (ns : List Ty) (h : TyEquiv m n) : TyEquivMem m (n :: ns)
  | tail (m n : Ty) (ns : List Ty) (h : TyEquivMem m ns) : TyEquivMem m (n :: ns)

/-- Membership of a field `(k, v)` in a field map up to `TyEquiv` on the
value. -/
inductive TyEquivField : String → Ty → List (String × Ty) → Prop where
  | head (k : String) (v v' : Ty) (rest : List (String × Ty)) (h : TyEquiv v v') :
      TyEquivField k v ((k, v') :: rest)
  | tail (k : String) (v : Ty) (kv : String × Ty) (rest : List (String × Ty))
      (h : TyEquivField k v rest) : TyEquivField k v (kv :: rest)

end

/-- Modelled from the spec: claim C7's wording of the ancestor step of
Truncate-Large-Union — "walk the single-inheritance ancestor chain of the
first member's nominal class, and if every member is a subtype of some
ancestor on that chain (excluding the universal root), return the most
specific such ancestor; else return Any".  The chain is
`compute_bases` (general to specific), searched most-specific-first. -/
def spec_chain_ancestor (H : Hier) (fuel : Nat) (ms : List Ty) : Ty :=
  match ms.mapM as_class with
  | some (k0 :: ks) =>
      (match ((RewriteMostSpecificCommonBase.compute_bases H fuel k0).reverse).find?
          (fun anc => anc != object_id
            && (k0 :: ks).all fun c => (H.mro c).contains anc) with
       | some anc => .nominal anc
       | none => .any)
  | _ => .any

/-- Plain longest-common-prefix of two lists, written independently of the
source's `zip`/`takeWhile` formulation, for comparison. -/
def lcp2 : List Nat → List Nat → List Nat
  | a :: as, b :: bs => if a = b then a :: lcp2 as bs else []
  | _, _ => []

/-- `p` is a prefix of `l`. -/
def PrefixOf (p l : List Nat) : Prop := ∃ t, p ++ t = l

/-- A trivial class hierarchy (no classes besides `object`). -/
def trivH : Hier := ⟨fun _ => [], fun _ => []⟩

/-- Class hierarchy for the Dog/Cat/Animal example: `Animal` (id 11) extends
`object`; `Dog` (id 12) and `Cat` (id 13) extend `Animal`. -/
def animalH : Hier :=
  ⟨fun c => if c == 12 then [11] else if c == 13 then [11] else if c == 11 then [object_id] else [],
   fun c =>
     if c == 12 then [12, 11, object_id]
     else if c == 13 then [13, 11, object_id]
     else if c == 11 then [11, object_id] else [c]⟩

/-- Class hierarchy with multiple inheritance for claim C7: `B` (20) and `C`
(21) extend `object`; `A` (22) extends both `B` and `C` (so `A`'s
single-inheritance chain is just `[A]`, while its MRO is `[A, B, C,
object]`); `D1..D5` (23–27) each extend `C`. -/
def mroH : Hier :=
  ⟨fun c =>
     if c == 22 then [20, 21]
     else if 23 ≤ c && c ≤ 27 then [21]
     else if c == 20 || c == 21 then [object_id] else [],
   fun c =>
     if c == 22 then [22, 20, 21, object_id]
     else if 23 ≤ c && c ≤ 27 then [c, 21, object_id]
     else if c == 20 || c == 21 then [c, object_id] else [c]⟩

/-- The six-member union `Union[A, D1, ..., D5]` over `mroH`, exceeding the
default threshold 5. -/
def c7_members : List Ty :=
  [.nominal 22, .nominal 23, .nominal 24, .nominal 25, .nominal 26, .nominal 27]

/-- The runtime value `[[{1: {2: 3}}], [{1: {2: "x"}}]]`, whose inferred type
is a builtins `list[...]` alias containing a union of two same-key `Dict`
members; the rewriting engine's module check returns the outermost builtins
alias unchanged, so the whole type passes through the pipeline untouched. -/
def c9_value : Value :=
  .vList [.vList [.vDict [(.vInt 1, .vDict [(.vInt 2, .vInt 3)])]],
          .vList [.vDict [(.vInt 1, .vDict [(.vInt 2, .vStr "x")])]]]

/-! ## Association-list accumulator lemmas -/

theorem has_key_append {α : Type} (k : String) (a b : List (String × α)) :
    has_key k (a ++ b) = (has_key k a || has_key k b) := by
  simp [has_key]

theorem append_value_fresh (k : String) (v : Ty) :
    ∀ acc : List (String × List Ty),
    has_key k acc = false → append_value acc k v = acc ++ [(k, [v])] := by
  intro acc
  induction acc with
  | nil => intro _; rfl
  | cons kv rest ih =>
      intro h
      simp only [has_key, List.any_cons, Bool.or_eq_false_iff] at h
      simp [append_value, h.1, ih (by simp [has_key, h.2])]

theorem add_entries_fresh (items : List (String × Ty)) :
    ∀ base : List (String × List Ty),
    (∀ kv ∈ items, has_key kv.1 base = false) → nodup_keys items = true →
    add_entries base items = base ++ items.map fun kv => (kv.1, [kv.2]) := by
  induction items with
  | nil => intro base _ _; simp [add_entries]
  | cons kv rest ih =>
      intro base hfresh hnd
      obtain ⟨k, v⟩ := kv
      simp only [nodup_keys, Bool.and_eq_true, Bool.not_eq_true'] at hnd
      have hb : has_key k base = false := hfresh (k, v) (List.mem_cons_self _ _)
      have step : add_entries base ((k, v) :: rest) = add_entries (base ++ [(k, [v])]) rest := by
        simp [add_entries, append_value_fresh k v base hb]
      rw [step, ih (base ++ [(k, [v])]) ?_ hnd.2]
      · simp
      · intro kv' hkv'
        rw [has_key_append]
        have h1 : has_key kv'.1 base = false := hfresh kv' (List.mem_cons_of_mem _ hkv')
        have h2 : has_key kv'.1 [(k, [v])] = false := by
          simp [has_key]
          intro hkk
          have : rest.any (·.1 == k) = true :=
            List.any_eq_true.2 ⟨kv', hkv', by simp [hkk]⟩
          rw [hnd.1] at this
          exact Bool.false_ne_true this
        rw [h1, h2]
        rfl

theorem key_value_types_single (r o : List (String × Ty)) (hnd : nodup_keys r = true) :
    key_value_types [Ty.record r o] = r.map fun kv => (kv.1, [kv.2]) := by
  have : key_value_types [Ty.record r o] = add_entries [] r := rfl
  rw [this, add_entries_fresh r [] (fun kv _ => rfl) hnd]
  simp

theorem existing_optional_fields_single (r o : List (String × Ty)) :
    existing_optional_fields [Ty.record r o] = o := by
  simp [existing_optional_fields, optional_fields_of]

theorem required_result_single (r o : List (String × Ty)) (hnd : nodup_keys r = true) :
    required_result [Ty.record r o] = r.map fun kv => (kv.1, [kv.2]) := by
  rw [required_result, key_value_types_single r o hnd]
  apply List.filter_eq_self.mpr
  intro a ha
  obtain ⟨kv, _, rfl⟩ := List.mem_map.1 ha
  simp

theorem optional_result_single (r o : List (String × Ty)) (hndr : nodup_keys r = true)
    (hndo : nodup_keys o = true) :
    optional_result [Ty.record r o] = o.map fun kv => (kv.1, [kv.2]) := by
  rw [optional_result, key_value_types_single r o hndr, existing_optional_fields_single]
  have hfil : ((r.map fun kv => (kv.1, [kv.2])).filter fun kv => kv.2.length != 1) = [] := by
    apply List.filter_eq_nil_iff.mpr
    intro a ha
    obtain ⟨kv, _, rfl⟩ := List.mem_map.1 ha
    simp
  simp only [List.length_singleton, hfil]
  rw [add_entries_fresh o [] (fun kv _ => rfl) hndo]
  simp

/-! ## Claim C2: shrink on a singleton -/

theorem shrink_types_single_non_record (fuel : Nat) (cap : Option Nat) (T : Ty)
    (h : is_anonymous_typed_dict T = false) :
    shrink_types (fuel+1) [T] cap = T := by
  simp [shrink_types, h]

/-- Claim C2 (amended), the positive part: `shrink([T]) = T` holds for every
single type `T` certified by `records_ok`: `T` is not an anonymous
TypedDict, or every TypedDict reachable from `T` through TypedDict field
values has duplicate-free field names and a field count within the cap. -/
theorem c2_shrink_single_amended (fuel : Nat) (cap : Option Nat) (T : Ty)
    (h : records_ok fuel cap T = true) :
    shrink_types fuel [T] cap = T := by
  induction fuel generalizing T with
  | zero => simp [records_ok] at h
  | succ fuel ih =>
      cases T
      case record r o =>
        simp only [records_ok, Bool.and_eq_true, Bool.not_eq_true', List.all_eq_true] at h
        obtain ⟨⟨⟨hndr, hndo⟩, hcap⟩, hvals⟩ := h
        rw [shrink_types]
        simp only [List.all_cons, List.all_nil, is_anonymous_typed_dict, Bool.and_self, if_true]
        rw [required_result_single r o hndr, optional_result_single r o hndr hndo]
        simp only [List.length_map]
        rw [hcap]
        simp only [Bool.false_eq_true, if_false, make_typed_dict, List.map_map]
        have hr : r.map ((fun kv => (kv.1, shrink_types fuel kv.2 cap)) ∘
            (fun kv => (kv.1, [kv.2]))) = r := by
          have hh : ∀ kv ∈ r, ((fun kv => (kv.1, shrink_types fuel kv.2 cap)) ∘
              (fun kv => (kv.1, [kv.2]))) kv = id kv := by
            intro kv hkv
            have hs : shrink_types fuel [kv.2] cap = kv.2 :=
              ih kv.2 (hvals kv.2 (by exact List.mem_append_left _ (List.mem_map_of_mem _ hkv)))
            simp [hs]
          rw [List.map_congr_left hh, List.map_id]
        have ho : o.map ((fun kv => (kv.1, shrink_types fuel kv.2 cap)) ∘
            (fun kv => (kv.1, [kv.2]))) = o := by
          have hh : ∀ kv ∈ o, ((fun kv => (kv.1, shrink_types fuel kv.2 cap)) ∘
              (fun kv => (kv.1, [kv.2]))) kv = id kv := by
            intro kv hkv
            have hs : shrink_types fuel [kv.2] cap = kv.2 :=
              ih kv.2 (hvals kv.2 (by exact List.mem_append_right _ (List.mem_map_of_mem _ hkv)))
            simp [hs]
          rw [List.map_congr_left hh, List.map_id]
        rw [hr, ho]
      all_goals exact shrink_types_single_non_record fuel cap _ rfl

/-- Claim C2, counterexample: for the single anonymous TypedDict
`{"a": int}` and `record_cap = 0`, `shrink([T])` is `dict[str, int]`, not
`T`: the single-record merge path enforces the cap and demotes, so
`shrink([T]) == T` fails for records whose field count exceeds the cap. -/
theorem c2_counterexample :
    shrink_types 3 [.record [("a", intTy)] []] (some 0) = .container .dict [strTy, intTy]
    ∧ shrink_types 3 [.record [("a", intTy)] []] (some 0) ≠ .record [("a", intTy)] [] := by
  constructor
  · decide
  · decide

/-- Claim C2 (amended), witness: a nested anonymous TypedDict within the cap
is returned unchanged by `shrink` (here at fuel 3 and cap 1). -/
theorem c2_witness :
    shrink_types 3 [.record [("a", .record [("b", intTy)] [])] []] (some 1)
      = .record [("a", .record [("b", intTy)] [])] [] :=
  c2_shrink_single_amended 3 (some 1) (.record [("a", .record [("b", intTy)] [])] []) (by decide)

/-- Claim C1: the Remove-Empty-Containers pass does not drop
observed-empty container members from a union.  Its `rewrite_Union`
computes the surviving members into `elems`, but then rebuilds the result
from `get_args(union)` — the original member list — so
`Union[Set[Any], Set[int]]` comes back with both members, contradicting the
pass's own docstring (`Union[Set[Any], Set[int]] -> Set[int]`).  This
theorem evaluates the embedded pass at that failing input. -/
theorem c1_remove_empty_containers_code_bug :
    RemoveEmptyContainers.rewrite 2 (.union [.container .set [.any], .container .set [intTy]])
      = .union [.container .set [.any], .container .set [intTy]]
    ∧ RemoveEmptyContainers.rewrite 2 (.union [.container .set [.any], .container .set [intTy]])
      ≠ .container .set [intTy] := by
  constructor
  · decide
  · decide

/-! ## Claim C5: record-cap enforcement -/

/-- Claim C5: for a non-empty list of anonymous TypedDicts whose merged
required-plus-optional field count strictly exceeds the cap, the record
merge returns `dict[str, shrink(all collected required and optional value
types)]`, and never an anonymous TypedDict. -/
theorem c5_record_cap_demotes (fuel : Nat) (typed_dicts : List Ty) (cap : Option Nat)
    (h0 : typed_dicts ≠ [])
    (h1 : typed_dicts.all is_anonymous_typed_dict = true)
    (h2 : cap_exceeded cap
        ((required_result typed_dicts).length + (optional_result typed_dicts).length) = true) :
    shrink_types (fuel+1) typed_dicts cap
      = .container .dict
          [strTy,
           shrink_types fuel
             (((required_result typed_dicts).map (·.2)
                ++ (optional_result typed_dicts).map (·.2)).flatten) cap]
    ∧ ∀ r o, shrink_types (fuel+1) typed_dicts cap ≠ .record r o := by
  have heq := shrink_types_all_typed_dicts fuel typed_dicts cap h0 h1
  rw [heq, shrink_typed_dict_types]
  constructor
  · simp [h2]
  · intro r o
    simp [h2]

/-- Claim C5, witness: two one-field records with distinct field names and
`record_cap = 1` demote to `dict[str, int | str]`. -/
theorem c5_witness :
    shrink_types 6 [.record [("a", intTy)] [], .record [("b", strTy)] []] (some 1)
      = .container .dict [strTy, .union [intTy, strTy]] := by
  have h := (c5_record_cap_demotes 5 [.record [("a", intTy)] [], .record [("b", strTy)] []]
    (some 1) (by decide) (by decide) (by decide)).1
  rw [h]
  decide

/-! ## Claim C6: dict inference -/

/-- Claim C6: `get_dict_type` returns `Dict[Any, Any]` for the empty
mapping; an anonymous TypedDict with every key required (and no optional
fields) when all keys are text and the field count fits under the cap (or
the cap is unset); and `Dict[shrink(key types), shrink(value types)]`
otherwise. -/
theorem c6_dict_inference (fuel : Nat) (cap : Option Nat) (pairs : List (Value × Value)) :
    (pairs = [] → get_dict_type fuel cap pairs = .container .dict [.any, .any])
    ∧ (pairs ≠ [] →
        (pairs.all (fun p => p.1.isStr) && dict_fits cap pairs.length) = true →
        get_dict_type fuel cap pairs
          = make_typed_dict (pairs.map fun p => (p.1.strVal, get_type fuel cap p.2)) [])
    ∧ (pairs ≠ [] →
        (pairs.all (fun p => p.1.isStr) && dict_fits cap pairs.length) = false →
        get_dict_type fuel cap pairs
          = .container .dict
              [shrink_types fuel (pairs.map fun p => get_type fuel cap p.1) cap,
               shrink_types fuel (pairs.map fun p => get_type fuel cap p.2) cap]) := by
  refine ⟨?_, ?_, ?_⟩
  · intro h
    subst h
    rfl
  · intro h0 hc
    have hne : pairs.isEmpty = false := by
      cases pairs with
      | nil => exact absurd rfl h0
      | cons p ps => rfl
    simp [get_dict_type, hne, hc]
  · intro h0 hc
    have hne : pairs.isEmpty = false := by
      cases pairs with
      | nil => exact absurd rfl h0
      | cons p ps => rfl
    simp [get_dict_type, hne, hc]

/-- Claim C6, witness: inferring `{"a": 1}` with `record_cap = 0` yields
`Dict[str, int]` directly, and no TypedDict is formed. -/
theorem c6_witness :
    get_dict_type 5 (some 0) [(.vStr "a", .vInt 1)] = .container .dict [strTy, intTy] := by
  have h := (c6_dict_inference 5 (some 0) [(.vStr "a", .vInt 1)]).2.2
    (List.cons_ne_nil _ _) (by decide)
  rw [h]
  decide

/-! ## defaultdict accumulator characterization -/

theorem has_key_cons {α : Type} (k : String) (kv : String × α) (rest : List (String × α)) :
    has_key k (kv :: rest) = ((kv.1 == k) || has_key k rest) := by
  simp [has_key]

theorem has_key_iff_exists {α : Type} (k : String) (l : List (String × α)) :
    has_key k l = true ↔ ∃ v, (k, v) ∈ l := by
  constructor
  · intro h
    obtain ⟨kv, hmem, hk⟩ := List.any_eq_true.1 h
    refine ⟨kv.2, ?_⟩
    have : kv.1 = k := by simpa using hk
    rw [← this]
    exact hmem
  · rintro ⟨v, hv⟩
    exact List.any_eq_true.2 ⟨(k, v), hv, by simp⟩

theorem str_beq_comm (a b : String) : (a == b) = (b == a) := by
  by_cases h : a = b
  · subst h
    rfl
  · rw [beq_eq_false_iff_ne.2 h, beq_eq_false_iff_ne.2 (Ne.symm h)]

theorem has_key_append_value : ∀ (acc : List (String × List Ty)) (k k' : String) (v : Ty),
    has_key k (append_value acc k' v) = (has_key k acc || (k' == k))
  | [], k, k', v => by simp [append_value, has_key]
  | kv :: rest, k, k', v => by
      by_cases h : (kv.1 == k') = true
      · rw [append_value, if_pos h, has_key_cons, has_key_cons]
        by_cases hk : (kv.1 == k) = true
        · simp [hk]
        · have h1 : kv.1 = k' := by simpa using h
          have h2 : (k' == k) = false := by
            rw [← h1]
            simpa using hk
          simp [hk, h2]
      · rw [append_value, if_neg h, has_key_cons, has_key_cons,
          has_key_append_value rest k k' v]
        cases kv.1 == k <;> simp

theorem entry_vals_append_value : ∀ (acc : List (String × List Ty)) (k k' : String) (v : Ty),
    entry_vals k (append_value acc k' v)
      = if k' == k then entry_vals k acc ++ [v] else entry_vals k acc
  | [], k, k', v => by
      by_cases h : (k' == k) = true <;> simp [append_value, entry_vals, h]
  | kv :: rest, k, k', v => by
      by_cases h : (kv.1 == k') = true
      · rw [append_value, if_pos h]
        by_cases hk : (kv.1 == k) = true
        · have h1 : kv.1 = k' := by simpa using h
          have h2 : kv.1 = k := by simpa using hk
          have h3 : (k' == k) = true := beq_iff_eq.mpr (by rw [← h1, ← h2])
          rw [if_pos h3]
          simp [entry_vals, hk]
        · have h1 : kv.1 = k' := by simpa using h
          have hkf : (kv.1 == k) = false := by simpa using hk
          have h3 : (k' == k) = false := by
            rw [← h1]
            exact hkf
          rw [if_neg (by simp [h3])]
          simp [entry_vals, hkf]
      · rw [append_value, if_neg h]
        by_cases hk : (kv.1 == k) = true
        · have h2 : kv.1 = k := by simpa using hk
          have h3 : (k' == k) = false := by
            cases hkk : k' == k
            · rfl
            · exfalso
              have hkk' : k' = k := by simpa using hkk
              rw [← h2] at hkk'
              exact absurd (beq_iff_eq.mpr hkk'.symm) h
          rw [if_neg (by simp [h3])]
          simp [entry_vals, hk]
        · have hkf : (kv.1 == k) = false := by simpa using hk
          by_cases h3 : (k' == k) = true <;>
            simp [entry_vals, hkf, h3, entry_vals_append_value rest k k' v]

theorem nodup_keys_append_value : ∀ (acc : List (String × List Ty)) (k : String) (v : Ty),
    nodup_keys acc = true → nodup_keys (append_value acc k v) = true
  | [], k, v, _ => by simp [append_value, nodup_keys]
  | kv :: rest, k, v, h => by
      simp only [nodup_keys, Bool.and_eq_true, Bool.not_eq_true'] at h
      by_cases hk : (kv.1 == k) = true
      · rw [append_value, if_pos hk]
        simp only [nodup_keys, Bool.and_eq_true, Bool.not_eq_true']
        exact h
      · rw [append_value, if_neg hk]
        simp only [nodup_keys, Bool.and_eq_true, Bool.not_eq_true']
        refine ⟨?_, nodup_keys_append_value rest k v h.2⟩
        have heq := has_key_append_value rest kv.1 k v
        simp only [has_key] at heq
        rw [heq, h.1]
        have hkk : (k == kv.1) = false := by
          cases hkk' : k == kv.1
          · rfl
          · exfalso
            have hx : k = kv.1 := by simpa using hkk'
            rw [hx] at hk
            exact hk (by simp)
        simp [hkk]

theorem has_key_add_entries : ∀ (items : List (String × Ty)) (base : List (String × List Ty))
    (k : String),
    has_key k (add_entries base items) = (has_key k base || items.any (·.1 == k))
  | [], base, k => by simp [add_entries]
  | kv :: rest, base, k => by
      have step : add_entries base (kv :: rest) = add_entries (append_value base kv.1 kv.2) rest := rfl
      rw [step, has_key_add_entries rest (append_value base kv.1 kv.2) k,
        has_key_append_value base k kv.1 kv.2]
      simp [Bool.or_assoc]

theorem entry_vals_add_entries : ∀ (items : List (String × Ty)) (base : List (String × List Ty))
    (k : String),
    entry_vals k (add_entries base items)
      = entry_vals k base ++ (items.filter (·.1 == k)).map (·.2)
  | [], base, k => by simp [add_entries]
  | kv :: rest, base, k => by
      have step : add_entries base (kv :: rest) = add_entries (append_value base kv.1 kv.2) rest := rfl
      rw [step, entry_vals_add_entries rest (append_value base kv.1 kv.2) k,
        entry_vals_append_value base k kv.1 kv.2]
      by_cases h : (kv.1 == k) = true
      · simp [h, List.filter_cons, List.append_assoc]
      · have hf : (kv.1 == k) = false := by simpa using h
        simp [hf, List.filter_cons]

theorem nodup_keys_add_entries : ∀ (items : List (String × Ty)) (base : List (String × List Ty)),
    nodup_keys base = true → nodup_keys (add_entries base items) = true
  | [], base, h => h
  | kv :: rest, base, h =>
      nodup_keys_add_entries rest (append_value base kv.1 kv.2)
        (nodup_keys_append_value base kv.1 kv.2 h)

theorem collected_required_cons (k : String) (td : Ty) (tds : List Ty) :
    collected_required k (td :: tds)
      = ((required_fields_of td).filter (·.1 == k)).map (·.2) ++ collected_required k tds := by
  simp [collected_required]

theorem collected_optional_cons (k : String) (td : Ty) (tds : List Ty) :
    collected_optional k (td :: tds)
      = ((optional_fields_of td).filter (·.1 == k)).map (·.2) ++ collected_optional k tds := by
  simp [collected_optional]

theorem key_value_types_fold_has_key :
    ∀ (tds : List Ty) (base : List (String × List Ty)) (k : String),
    has_key k (tds.foldl (fun acc td => add_entries acc (required_fields_of td)) base)
      = (has_key k base || tds.any (fun td => required_in k td))
  | [], base, k => by simp
  | td :: tds, base, k => by
      rw [List.foldl_cons, key_value_types_fold_has_key tds _ k,
        has_key_add_entries (required_fields_of td) base k]
      simp [required_in, Bool.or_assoc]

theorem key_value_types_fold_entry_vals :
    ∀ (tds : List Ty) (base : List (String × List Ty)) (k : String),
    entry_vals k (tds.foldl (fun acc td => add_entries acc (required_fields_of td)) base)
      = entry_vals k base ++ collected_required k tds
  | [], base, k => by simp [collected_required]
  | td :: tds, base, k => by
      rw [List.foldl_cons, key_value_types_fold_entry_vals tds _ k,
        entry_vals_add_entries (required_fields_of td) base k, collected_required_cons,
        List.append_assoc]

theorem key_value_types_fold_nodup :
    ∀ (tds : List Ty) (base : List (String × List Ty)),
    nodup_keys base = true →
    nodup_keys (tds.foldl (fun acc td => add_entries acc (required_fields_of td)) base) = true
  | [], base, h => h
  | td :: tds, base, h =>
      key_value_types_fold_nodup tds _ (nodup_keys_add_entries (required_fields_of td) base h)

theorem has_key_key_value_types (tds : List Ty) (k : String) :
    has_key k (key_value_types tds) = tds.any (fun td => required_in k td) := by
  rw [key_value_types, key_value_types_fold_has_key tds [] k]
  rfl

theorem entry_vals_key_value_types (tds : List Ty) (k : String) :
    entry_vals k (key_value_types tds) = collected_required k tds := by
  rw [key_value_types, key_value_types_fold_entry_vals tds [] k]
  rfl

theorem nodup_keys_key_value_types (tds : List Ty) :
    nodup_keys (key_value_types tds) = true :=
  key_value_types_fold_nodup tds [] rfl

theorem existing_optional_fields_eq : ∀ (tds : List Ty),
    existing_optional_fields tds = (tds.map optional_fields_of).flatten := by
  have aux : ∀ (tds : List Ty) (base : List (String × Ty)),
      tds.foldl (fun acc td => acc ++ optional_fields_of td) base
        = base ++ (tds.map optional_fields_of).flatten := by
    intro tds
    induction tds with
    | nil => intro base; simp
    | cons td tds ih =>
        intro base
        rw [List.foldl_cons, ih (base ++ optional_fields_of td)]
        simp
  intro tds
  rw [existing_optional_fields, aux tds []]
  rfl

theorem existing_optional_any (tds : List Ty) (k : String) :
    (existing_optional_fields tds).any (·.1 == k) = tds.any (fun td => optional_in k td) := by
  rw [existing_optional_fields_eq]
  induction tds with
  | nil => simp
  | cons td tds ih => simp [ih, optional_in]

theorem existing_optional_filter (tds : List Ty) (k : String) :
    ((existing_optional_fields tds).filter (·.1 == k)).map (·.2) = collected_optional k tds := by
  rw [existing_optional_fields_eq]
  induction tds with
  | nil => simp [collected_optional]
  | cons td tds ih =>
      rw [collected_optional_cons, ← ih]
      simp

theorem mem_entry_vals : ∀ (acc : List (String × List Ty)) (k : String) (vs : List Ty),
    nodup_keys acc = true → (k, vs) ∈ acc → entry_vals k acc = vs
  | [], k, vs, _, hmem => absurd hmem (List.not_mem_nil _)
  | kv :: rest, k, vs, hnd, hmem => by
      simp only [nodup_keys, Bool.and_eq_true, Bool.not_eq_true'] at hnd
      rcases List.mem_cons.1 hmem with heq | hmem'
      · rw [← heq]
        simp [entry_vals]
      · by_cases hk : (kv.1 == k) = true
        · exfalso
          have hx : kv.1 = k := by simpa using hk
          have : rest.any (·.1 == kv.1) = true := by
            apply List.any_eq_true.2
            exact ⟨(k, vs), hmem', by simp [hx]⟩
          rw [hnd.1] at this
          exact Bool.false_ne_true this
        · have hkf : (kv.1 == k) = false := by simpa using hk
          simp only [entry_vals, hkf]
          simp only [Bool.false_eq_true, if_false]
          exact mem_entry_vals rest k vs hnd.2 hmem'

theorem has_key_mem_entry : ∀ (acc : List (String × List Ty)) (k : String),
    has_key k acc = true → (k, entry_vals k acc) ∈ acc
  | [], k, h => by simp [has_key] at h
  | kv :: rest, k, h => by
      by_cases hk : (kv.1 == k) = true
      · have hx : kv.1 = k := by simpa using hk
        simp only [entry_vals, hk, if_true]
        rw [← hx]
        exact List.mem_cons_self _ _
      · have hkf : (kv.1 == k) = false := by simpa using hk
        rw [has_key_cons, hkf] at h
        simp only [Bool.false_or] at h
        simp only [entry_vals, hkf, Bool.false_eq_true, if_false]
        exact List.mem_cons_of_mem kv (has_key_mem_entry rest k h)

theorem nodup_keys_filter {α : Type} (p : String × α → Bool) :
    ∀ acc : List (String × α), nodup_keys acc = true → nodup_keys (acc.filter p) = true
  | [], _ => rfl
  | kv :: rest, hnd => by
      simp only [nodup_keys, Bool.and_eq_true, Bool.not_eq_true'] at hnd
      rw [List.filter_cons]
      by_cases hp : p kv = true
      · simp only [hp, if_true, nodup_keys, Bool.and_eq_true, Bool.not_eq_true']
        refine ⟨?_, nodup_keys_filter p rest hnd.2⟩
        cases hany : (rest.filter p).any (·.1 == kv.1)
        · rfl
        · exfalso
          obtain ⟨kv', hmem', hk'⟩ := List.any_eq_true.1 hany
          have : rest.any (·.1 == kv.1) = true :=
            List.any_eq_true.2 ⟨kv', (List.mem_filter.1 hmem').1, hk'⟩
          rw [hnd.1] at this
          exact Bool.false_ne_true this
      · simp only [hp]
        simp only [Bool.false_eq_true, if_false]
        exact nodup_keys_filter p rest hnd.2

theorem mem_filter_entry (acc : List (String × List Ty)) (p : String × List Ty → Bool)
    (k : String) (vs : List Ty) (hnd : nodup_keys acc = true) :
    ((k, vs) ∈ acc.filter p) ↔ ((k, vs) ∈ acc ∧ p (k, vs) = true) := List.mem_filter

theorem has_key_filter_iff (acc : List (String × List Ty)) (p : String × List Ty → Bool)
    (k : String) (hnd : nodup_keys acc = true) :
    has_key k (acc.filter p) = true ↔ (has_key k acc = true ∧ p (k, entry_vals k acc) = true) := by
  constructor
  · intro h
    obtain ⟨vs, hmem⟩ := (has_key_iff_exists k _).1 h
    have hmem' := (List.mem_filter.1 hmem).1
    have hp := (List.mem_filter.1 hmem).2
    have hk : has_key k acc = true := (has_key_iff_exists k acc).2 ⟨vs, hmem'⟩
    have hv : entry_vals k acc = vs := mem_entry_vals acc k vs hnd hmem'
    rw [hv]
    exact ⟨hk, hp⟩
  · rintro ⟨hk, hp⟩
    apply (has_key_iff_exists k _).2
    refine ⟨entry_vals k acc, List.mem_filter.2 ⟨has_key_mem_entry acc k hk, hp⟩⟩

theorem entry_vals_filter (acc : List (String × List Ty)) (p : String × List Ty → Bool)
    (k : String) (vs : List Ty) (hnd : nodup_keys acc = true)
    (hmem : (k, vs) ∈ acc.filter p) : vs = entry_vals k acc :=
  (mem_entry_vals acc k vs hnd (List.mem_filter.1 hmem).1).symm

theorem filter_key_length {α : Type} (k : String) :
    ∀ l : List (String × α), nodup_keys l = true →
    (l.filter (·.1 == k)).length = if l.any (·.1 == k) then 1 else 0
  | [], _ => rfl
  | kv :: rest, hnd => by
      simp only [nodup_keys, Bool.and_eq_true, Bool.not_eq_true'] at hnd
      rw [List.filter_cons, List.any_cons]
      by_cases hk : (kv.1 == k) = true
      · have hx : kv.1 = k := by simpa using hk
        have hnone : rest.filter (·.1 == k) = [] := by
          apply List.filter_eq_nil_iff.mpr
          intro kv' hmem'
          cases hk' : kv'.1 == k
          · simp
          · exfalso
            have : rest.any (·.1 == kv.1) = true := by
              apply List.any_eq_true.2
              refine ⟨kv', hmem', ?_⟩
              rw [hx]
              exact hk'
            rw [hnd.1] at this
            exact Bool.false_ne_true this
        simp [hk, hnone]
      · have hkf : (kv.1 == k) = false := by simpa using hk
        simp only [hkf, Bool.false_eq_true, if_false, Bool.false_or]
        exact filter_key_length k rest hnd.2

theorem collected_required_length (k : String) :
    ∀ tds : List Ty, (∀ td ∈ tds, nodup_keys (required_fields_of td) = true) →
    (collected_required k tds).length = tds.countP (fun td => required_in k td)
  | [], _ => by simp [collected_required]
  | td :: tds, hnd => by
      rw [collected_required_cons, List.length_append, List.length_map,
        filter_key_length k (required_fields_of td) (hnd td (List.mem_cons_self _ _)),
        collected_required_length k tds (fun td' h => hnd td' (List.mem_cons_of_mem _ h)),
        List.countP_cons]
      simp only [required_in]
      by_cases h : (required_fields_of td).any (·.1 == k) = true
      · omega
      · omega

theorem entry_vals_eq_nil_of_no_key : ∀ (acc : List (String × List Ty)) (k : String),
    has_key k acc = false → entry_vals k acc = []
  | [], k, _ => rfl
  | kv :: rest, k, h => by
      rw [has_key_cons] at h
      simp only [Bool.or_eq_false_iff] at h
      simp only [entry_vals, h.1]
      simp only [Bool.false_eq_true, if_false]
      exact entry_vals_eq_nil_of_no_key rest k h.2

theorem collected_required_eq_nil (tds : List Ty) (k : String)
    (h : tds.any (fun td => required_in k td) = false) :
    collected_required k tds = [] := by
  induction tds with
  | nil => rfl
  | cons td tds ih =>
      rw [List.any_cons, Bool.or_eq_false_iff] at h
      rw [collected_required_cons, ih h.2, List.append_nil]
      apply List.map_eq_nil_iff.mpr
      apply List.filter_eq_nil_iff.mpr
      intro kv hmem
      intro hkv
      have : required_in k td = true := List.any_eq_true.2 ⟨kv, hmem, hkv⟩
      rw [h.1] at this
      exact Bool.false_ne_true this

theorem disjoint_no_optional (td : Ty) (k : String)
    (hdisj : typed_dict_fields_disjoint (required_fields_of td) (optional_fields_of td) = true)
    (hreq : required_in k td = true) : optional_in k td = false := by
  obtain ⟨kv, hmem, hk⟩ := List.any_eq_true.1 hreq
  have hx : kv.1 = k := by simpa using hk
  have := (List.all_eq_true.1 hdisj) kv hmem
  simp only [Bool.not_eq_true'] at this
  rw [optional_in, ← hx]
  exact this

theorem nodup_keys_required_result (tds : List Ty) :
    nodup_keys (required_result tds) = true :=
  nodup_keys_filter _ (key_value_types tds) (nodup_keys_key_value_types tds)

theorem nodup_keys_optional_result (tds : List Ty) :
    nodup_keys (optional_result tds) = true :=
  nodup_keys_add_entries _ _
    (nodup_keys_filter _ (key_value_types tds) (nodup_keys_key_value_types tds))

theorem has_key_required_result_iff (tds : List Ty) (k : String) (h0 : tds ≠ [])
    (hnd : ∀ td ∈ tds, nodup_keys (required_fields_of td) = true) :
    has_key k (required_result tds) = true ↔ ∀ td ∈ tds, required_in k td = true := by
  rw [required_result,
    has_key_filter_iff (key_value_types tds) _ k (nodup_keys_key_value_types tds),
    has_key_key_value_types, entry_vals_key_value_types]
  constructor
  · rintro ⟨hany, hlen⟩
    have hlen' : (collected_required k tds).length = tds.length := by simpa using hlen
    rw [collected_required_length k tds hnd] at hlen'
    have := List.countP_eq_length.1 hlen'
    intro td htd
    exact this td htd
  · intro hall
    constructor
    · match tds, h0 with
      | td :: tds, _ =>
          exact List.any_eq_true.2 ⟨td, List.mem_cons_self _ _, hall td (List.mem_cons_self _ _)⟩
    · have : (collected_required k tds).length = tds.length := by
        rw [collected_required_length k tds hnd]
        exact List.countP_eq_length.2 hall
      simpa using this

theorem has_key_optional_result_iff (tds : List Ty) (k : String)
    (hnd : ∀ td ∈ tds, nodup_keys (required_fields_of td) = true) :
    has_key k (optional_result tds) = true ↔
      ((tds.any (fun td => required_in k td) = true
          ∧ ¬ (collected_required k tds).length = tds.length)
        ∨ tds.any (fun td => optional_in k td) = true) := by
  rw [optional_result, has_key_add_entries, existing_optional_any]
  rw [Bool.or_eq_true]
  constructor
  · rintro (hfil | hex)
    · left
      have := (has_key_filter_iff (key_value_types tds) _ k
        (nodup_keys_key_value_types tds)).1 hfil
      rw [has_key_key_value_types, entry_vals_key_value_types] at this
      refine ⟨this.1, ?_⟩
      have h2 := this.2
      simpa using h2
    · right
      exact hex
  · rintro (⟨hany, hlen⟩ | hex)
    · left
      apply (has_key_filter_iff (key_value_types tds) _ k
        (nodup_keys_key_value_types tds)).2
      rw [has_key_key_value_types, entry_vals_key_value_types]
      refine ⟨hany, ?_⟩
      simpa using hlen
    · right
      exact hex

theorem mem_required_result_vals (tds : List Ty) (k : String) (vs : List Ty)
    (hmem : (k, vs) ∈ required_result tds) : vs = collected_required k tds := by
  have := entry_vals_filter (key_value_types tds) _ k vs (nodup_keys_key_value_types tds) hmem
  rw [entry_vals_key_value_types] at this
  exact this

theorem mem_optional_result_vals (tds : List Ty) (k : String) (vs : List Ty)
    (hnd : ∀ td ∈ tds, nodup_keys (required_fields_of td) = true)
    (hdisj : ∀ td ∈ tds, typed_dict_fields_disjoint (required_fields_of td)
        (optional_fields_of td) = true)
    (hmem : (k, vs) ∈ optional_result tds) :
    vs = collected_required k tds ++ collected_optional k tds := by
  have hvs : vs = entry_vals k (optional_result tds) :=
    (mem_entry_vals _ k vs (nodup_keys_optional_result tds) hmem).symm
  rw [optional_result, entry_vals_add_entries, existing_optional_filter] at hvs
  by_cases hfil : has_key k ((key_value_types tds).filter
      fun kv => kv.2.length != tds.length) = true
  · have hent := has_key_mem_entry _ k hfil
    have := entry_vals_filter (key_value_types tds) _ k _
      (nodup_keys_key_value_types tds) hent
    rw [entry_vals_key_value_types] at this
    rw [hvs, ← this]
  · have hnil : entry_vals k ((key_value_types tds).filter
        fun kv => kv.2.length != tds.length) = [] := by
      apply entry_vals_eq_nil_of_no_key
      cases h : has_key k ((key_value_types tds).filter fun kv => kv.2.length != tds.length)
      · rfl
      · exact absurd h hfil
    rw [hnil] at hvs
    -- in this case no record requires k, so the collected required list is empty
    have hnone : tds.any (fun td => required_in k td) = false := by
      cases hany : tds.any (fun td => required_in k td)
      · rfl
      · exfalso
        -- k is required somewhere; it must be in the filtered map or required everywhere
        by_cases hall : ∀ td ∈ tds, required_in k td = true
        · -- required everywhere; but k also appears among the existing optional fields
          -- (otherwise (k, vs) could not be in the optional result), contradicting
          -- per-record disjointness
          have hkey : has_key k (optional_result tds) = true :=
            (has_key_iff_exists k _).2 ⟨vs, hmem⟩
          rcases (has_key_optional_result_iff tds k hnd).1 hkey with ⟨_, hlen⟩ | hex
          · apply hlen
            rw [collected_required_length k tds hnd]
            exact List.countP_eq_length.2 hall
          · obtain ⟨td, htd, hopt⟩ := List.any_eq_true.1 hex
            have := disjoint_no_optional td k (hdisj td htd) (hall td htd)
            rw [this] at hopt
            exact Bool.false_ne_true hopt
        · -- required somewhere but not everywhere: the key would be in the filtered map
          apply hfil
          apply (has_key_filter_iff (key_value_types tds) _ k
            (nodup_keys_key_value_types tds)).2
          rw [has_key_key_value_types, entry_vals_key_value_types]
          refine ⟨hany, ?_⟩
          have : ¬ (collected_required k tds).length = tds.length := by
            intro hlen
            rw [collected_required_length k tds hnd] at hlen
            exact hall (List.countP_eq_length.1 hlen)
          simpa using this
    rw [collected_required_eq_nil tds k hnone]
    simpa using hvs

/-! ## Claim C4: record merge -/

/-- Claim C4: merging a non-empty list of anonymous TypedDicts within the cap
yields a TypedDict whose required keys are exactly the field names required
in every input record; every other observed field name is optional; and each
result field's value type is the shrink of all value types observed for that
name (for an optional field, across both required and optional
occurrences). -/
theorem c4_record_merge (fuel : Nat) (typed_dicts : List Ty) (cap : Option Nat)
    (h0 : typed_dicts ≠ [])
    (h1 : typed_dicts.all is_anonymous_typed_dict = true)
    (hnd : ∀ td ∈ typed_dicts, nodup_keys (required_fields_of td) = true)
    (hdisj : ∀ td ∈ typed_dicts, typed_dict_fields_disjoint (required_fields_of td)
        (optional_fields_of td) = true)
    (h2 : cap_exceeded cap
        ((required_result typed_dicts).length + (optional_result typed_dicts).length) = false) :
    shrink_types (fuel+1) typed_dicts cap
      = make_typed_dict
          ((required_result typed_dicts).map fun kv => (kv.1, shrink_types fuel kv.2 cap))
          ((optional_result typed_dicts).map fun kv => (kv.1, shrink_types fuel kv.2 cap))
    ∧ (∀ k, has_key k (required_result typed_dicts) = true
        ↔ ∀ td ∈ typed_dicts, required_in k td = true)
    ∧ (∀ k, has_key k (optional_result typed_dicts) = true
        ↔ (((∃ td ∈ typed_dicts, required_in k td = true)
             ∧ ¬ ∀ td ∈ typed_dicts, required_in k td = true)
           ∨ ∃ td ∈ typed_dicts, optional_in k td = true))
    ∧ (∀ k vs, (k, vs) ∈ required_result typed_dicts → vs = collected_required k typed_dicts)
    ∧ (∀ k vs, (k, vs) ∈ optional_result typed_dicts →
        vs = collected_required k typed_dicts ++ collected_optional k typed_dicts) := by
  refine ⟨?_, ?_, ?_, ?_, ?_⟩
  · rw [shrink_types_all_typed_dicts fuel typed_dicts cap h0 h1, shrink_typed_dict_types]
    simp [h2]
  · intro k
    exact has_key_required_result_iff typed_dicts k h0 hnd
  · intro k
    rw [has_key_optional_result_iff typed_dicts k hnd]
    constructor
    · rintro (⟨hany, hlen⟩ | hex)
      · obtain ⟨td, htd, hreq⟩ := List.any_eq_true.1 hany
        left
        refine ⟨⟨td, htd, hreq⟩, ?_⟩
        intro hall
        apply hlen
        rw [collected_required_length k typed_dicts hnd]
        exact List.countP_eq_length.2 hall
      · obtain ⟨td, htd, hopt⟩ := List.any_eq_true.1 hex
        right
        exact ⟨td, htd, hopt⟩
    · rintro (⟨⟨td, htd, hreq⟩, hnall⟩ | ⟨td, htd, hopt⟩)
      · left
        refine ⟨List.any_eq_true.2 ⟨td, htd, hreq⟩, ?_⟩
        intro hlen
        rw [collected_required_length k typed_dicts hnd] at hlen
        exact hnall (List.countP_eq_length.1 hlen)
      · right
        exact List.any_eq_true.2 ⟨td, htd, hopt⟩
  · intro k vs hmem
    exact mem_required_result_vals typed_dicts k vs hmem
  · intro k vs hmem
    exact mem_optional_result_vals typed_dicts k vs hnd hdisj hmem

/-- Claim C4, witness: merging the records inferred from `{"a": 1}` and
`{"a": 2, "b": "x"}` with `record_cap = 10` yields required `{a: int}` and
optional `{b: str}`. -/
theorem c4_witness :
    shrink_types 6
      [get_type 6 (some 10) (.vDict [(.vStr "a", .vInt 1)]),
       get_type 6 (some 10) (.vDict [(.vStr "a", .vInt 2), (.vStr "b", .vStr "x")])]
      (some 10)
      = .record [("a", intTy)] [("b", strTy)] := by
  have h := (c4_record_merge 5
    [get_type 6 (some 10) (.vDict [(.vStr "a", .vInt 1)]),
     get_type 6 (some 10) (.vDict [(.vStr "a", .vInt 2), (.vStr "b", .vStr "x")])]
    (some 10) (List.cons_ne_nil _ _) (by decide)
    (by decide) (by decide) (by decide)).1
  rw [h]
  decide

/-! ## Claim C10: merge preserves required/optional disjointness -/

/-- Claim C10: when every input record has disjoint required and optional key
sets, the required and optional field maps computed by the record merge (the
arguments `make_typed_dict` receives in the non-demoting branch) are
key-disjoint, so the `assert` in `make_typed_dict` never fails during
shrinking. -/
theorem c10_merge_disjoint (fuel : Nat) (typed_dicts : List Ty) (cap : Option Nat)
    (h0 : typed_dicts ≠ [])
    (hnd : ∀ td ∈ typed_dicts, nodup_keys (required_fields_of td) = true)
    (hdisj : ∀ td ∈ typed_dicts, typed_dict_fields_disjoint (required_fields_of td)
        (optional_fields_of td) = true) :
    typed_dict_fields_disjoint
      ((required_result typed_dicts).map fun kv => (kv.1, shrink_types fuel kv.2 cap))
      ((optional_result typed_dicts).map fun kv => (kv.1, shrink_types fuel kv.2 cap)) = true := by
  apply List.all_eq_true.2
  intro kv hkv
  obtain ⟨kv0, hkv0, rfl⟩ := List.mem_map.1 hkv
  simp only [Bool.not_eq_true']
  cases hany : (((optional_result typed_dicts).map
      fun kv => (kv.1, shrink_types fuel kv.2 cap)).any fun kv' => kv'.1 == kv0.1)
  · rfl
  · exfalso
    obtain ⟨kv', hkv', hk'⟩ := List.any_eq_true.1 hany
    obtain ⟨kv1, hkv1, rfl⟩ := List.mem_map.1 hkv'
    -- kv0 is a required-result entry, kv1 an optional-result entry with the same key
    have hkey : kv1.1 = kv0.1 := by simpa using hk'
    have hreq : has_key kv0.1 (required_result typed_dicts) = true :=
      (has_key_iff_exists kv0.1 _).2 ⟨kv0.2, by
        have : (kv0.1, kv0.2) = kv0 := rfl
        rw [this]
        exact hkv0⟩
    have hopt : has_key kv0.1 (optional_result typed_dicts) = true :=
      (has_key_iff_exists kv0.1 _).2 ⟨kv1.2, by
        rw [← hkey]
        have : (kv1.1, kv1.2) = kv1 := rfl
        rw [this]
        exact hkv1⟩
    have hall := (has_key_required_result_iff typed_dicts kv0.1 h0 hnd).1 hreq
    rcases (has_key_optional_result_iff typed_dicts kv0.1 hnd).1 hopt with ⟨_, hlen⟩ | hex
    · apply hlen
      rw [collected_required_length kv0.1 typed_dicts hnd]
      exact List.countP_eq_length.2 hall
    · obtain ⟨td, htd, hoptin⟩ := List.any_eq_true.1 hex
      have := disjoint_no_optional td kv0.1 (hdisj td htd) (hall td htd)
      rw [this] at hoptin
      exact Bool.false_ne_true hoptin

/-- Claim C10, witness: the field maps merged from the records
`{required a: int}` and `{required a: int, optional b: str}` are
key-disjoint. -/
theorem c10_witness :
    typed_dict_fields_disjoint
      ((required_result [.record [("a", intTy)] [], .record [("a", intTy)] [("b", strTy)]]).map
        fun kv => (kv.1, shrink_types 4 kv.2 (some 10)))
      ((optional_result [.record [("a", intTy)] [], .record [("a", intTy)] [("b", strTy)]]).map
        fun kv => (kv.1, shrink_types 4 kv.2 (some 10))) = true :=
  c10_merge_disjoint 4 [.record [("a", intTy)] [], .record [("a", intTy)] [("b", strTy)]]
    (some 10) (List.cons_ne_nil _ _) (by decide) (by decide)

/-! ## Claim C7: Truncate-Large-Union -/

theorem nat_contains_iff (l : List Nat) (a : Nat) : l.contains a = true ↔ a ∈ l := by
  simp

theorem find?_split {α : Type} (p : α → Bool) :
    ∀ (l : List α) (a : α), l.find? p = some a →
    ∃ s t, l = s ++ a :: t ∧ ∀ x ∈ s, p x = false
  | [], a, h => by simp at h
  | b :: bs, a, h => by
      by_cases hb : p b = true
      · rw [List.find?_cons_of_pos bs hb] at h
        obtain rfl : b = a := by injection h
        exact ⟨[], bs, rfl, by intro x hx; simp at hx⟩
      · rw [List.find?_cons_of_neg bs hb] at h
        obtain ⟨s, t, rfl, hs⟩ := find?_split p bs a h
        refine ⟨b :: s, t, rfl, ?_⟩
        intro x hx
        rcases List.mem_cons.1 hx with rfl | hx'
        · simpa using hb
        · exact hs x hx'

theorem rewrite_large_union_unfold (H : Hier) (max_union_len fuel : Nat) (ms : List Ty) :
    RewriteLargeUnion.rewrite H max_union_len (fuel+1) (.union ms)
      = if ms.length ≤ max_union_len then .union ms
        else
          (match RewriteLargeUnion.rewrite_to_tuple ms with
           | some rw => rw
           | none =>
             match ms.mapM as_class with
             | some (k0 :: ks) =>
                 (match (H.mro k0).find?
                     (fun anc => anc != object_id
                       && (k0 :: ks).all fun c => (H.mro c).contains anc) with
                  | some anc => .nominal anc
                  | none => .any)
             | _ => .any) := rfl

theorem rewrite_large_union_classes (H : Hier) (max_union_len fuel : Nat) (ms : List Ty)
    (k0 : Nat) (ks : List Nat) (hgt : ¬ ms.length ≤ max_union_len)
    (htup : RewriteLargeUnion.rewrite_to_tuple ms = none)
    (hmap : ms.mapM as_class = some (k0 :: ks)) :
    RewriteLargeUnion.rewrite H max_union_len (fuel+1) (.union ms)
      = (match (H.mro k0).find?
            (fun anc => anc != object_id
              && (k0 :: ks).all fun c => (H.mro c).contains anc) with
         | some anc => .nominal anc
         | none => .any) := by
  rw [rewrite_large_union_unfold, if_neg hgt, htup, hmap]

/-- Claim C7 (amended): the behaviour of `RewriteLargeUnion.rewrite` on a
union: at or below the threshold the union passes through unchanged; above
it, a union of fixed tuples over one shared element type collapses to the
variadic tuple; otherwise, when every member is a nominal class, the result
is the first class in the method resolution order of the *first* member
(`inspect.getmro`, ordered most-specific-first), other than `object`, of
which every member is a subclass — and `Any` when no such class exists or
some member is not a class. -/
theorem c7_large_union_amended (H : Hier) (max_union_len fuel : Nat) (ms : List Ty) :
    (ms.length ≤ max_union_len →
      RewriteLargeUnion.rewrite H max_union_len (fuel+1) (.union ms) = .union ms)
    ∧ (max_union_len < ms.length → ∀ t, RewriteLargeUnion.rewrite_to_tuple ms = some t →
        RewriteLargeUnion.rewrite H max_union_len (fuel+1) (.union ms) = t)
    ∧ (max_union_len < ms.length → RewriteLargeUnion.rewrite_to_tuple ms = none →
        ∀ k0 ks, ms.mapM as_class = some (k0 :: ks) →
        (∀ anc, (H.mro k0).find? (fun anc => anc != object_id
              && (k0 :: ks).all fun c => (H.mro c).contains anc) = some anc →
            RewriteLargeUnion.rewrite H max_union_len (fuel+1) (.union ms) = .nominal anc
            ∧ anc ≠ object_id
            ∧ (∀ c ∈ k0 :: ks, anc ∈ H.mro c)
            ∧ ∃ s t, H.mro k0 = s ++ anc :: t
                ∧ ∀ a ∈ s, a = object_id ∨ ∃ c ∈ k0 :: ks, a ∉ H.mro c)
        ∧ ((H.mro k0).find? (fun anc => anc != object_id
              && (k0 :: ks).all fun c => (H.mro c).contains anc) = none →
            RewriteLargeUnion.rewrite H max_union_len (fuel+1) (.union ms) = .any))
    ∧ (max_union_len < ms.length → RewriteLargeUnion.rewrite_to_tuple ms = none →
        ms.mapM as_class = none →
        RewriteLargeUnion.rewrite H max_union_len (fuel+1) (.union ms) = .any) := by
  have hlt : ∀ _ : max_union_len < ms.length, ¬ (ms.length ≤ max_union_len) :=
    fun h => Nat.not_le.2 h
  refine ⟨?_, ?_, ?_, ?_⟩
  · intro hle
    rw [rewrite_large_union_unfold, if_pos hle]
  · intro hgt t htup
    rw [rewrite_large_union_unfold, if_neg (hlt hgt), htup]
  · intro hgt htup k0 ks hmap
    constructor
    · intro anc hfind
      have hp := List.find?_some hfind
      simp only [Bool.and_eq_true, bne_iff_ne, List.all_eq_true] at hp
      refine ⟨?_, hp.1, ?_, ?_⟩
      · rw [rewrite_large_union_classes H max_union_len fuel ms k0 ks (hlt hgt) htup hmap, hfind]
      · intro c hc
        have hcc := hp.2 c hc
        exact (nat_contains_iff _ _).1 hcc
      · obtain ⟨s, t, hst, hs⟩ := find?_split _ (H.mro k0) anc hfind
        refine ⟨s, t, hst, ?_⟩
        intro a ha
        have hfalse := hs a ha
        have hfalse' : ((a != object_id)
            && (k0 :: ks).all fun c => (H.mro c).contains a) = false := hfalse
        rcases Bool.and_eq_false_iff.1 hfalse' with h1 | h2
        · left
          exact bne_eq_false_iff_eq.1 h1
        · right
          obtain ⟨c, hc, hcc⟩ := List.all_eq_false.1 h2
          refine ⟨c, hc, ?_⟩
          intro hmem
          exact hcc ((nat_contains_iff _ _).2 hmem)
    · intro hfind
      rw [rewrite_large_union_classes H max_union_len fuel ms k0 ks (hlt hgt) htup hmap, hfind]
  · intro hgt htup hmap
    rw [rewrite_large_union_unfold, if_neg (hlt hgt), htup, hmap]
/-- Claim C7, counterexample: over the hierarchy `mroH` (where the first
member `A` has two direct bases, so its single-inheritance ancestor chain is
just `[A]`), the pass applied to the six-member union `Union[A, D1..D5]`
returns `C` — a class found on `A`'s MRO but not on the chain the claim
describes — while the claim's chain-based rule (`spec_chain_ancestor`,
worded from the claim) yields `Any`. -/
theorem c7_counterexample :
    RewriteLargeUnion.rewrite mroH 5 1 (.union c7_members) = .nominal 21
    ∧ spec_chain_ancestor mroH 10 c7_members = .any
    ∧ RewriteLargeUnion.rewrite mroH 5 1 (.union c7_members)
        ≠ spec_chain_ancestor mroH 10 c7_members := by
  refine ⟨by decide, by decide, by decide⟩

/-- Claim C7 (amended), witness: a union of exactly five members (the
default threshold) passes through unchanged. -/
theorem c7_witness :
    RewriteLargeUnion.rewrite trivH 5 1
      (.union [.nominal 11, .nominal 12, .nominal 13, .nominal 14, .nominal 15])
      = .union [.nominal 11, .nominal 12, .nominal 13, .nominal 14, .nominal 15] :=
  (c7_large_union_amended trivH 5 0
    [.nominal 11, .nominal 12, .nominal 13, .nominal 14, .nominal 15]).1 (by decide)

/-! ## Claim C8: Common-Ancestor-Union -/

theorem prefix_of_refl (l : List Nat) : PrefixOf l l := ⟨[], List.append_nil l⟩

theorem prefix_of_nil (l : List Nat) : PrefixOf [] l := ⟨l, rfl⟩

theorem prefix_of_trans {p q l : List Nat} (h1 : PrefixOf p q) (h2 : PrefixOf q l) :
    PrefixOf p l := by
  obtain ⟨s, hs⟩ := h1
  obtain ⟨t, ht⟩ := h2
  exact ⟨s ++ t, by rw [← List.append_assoc, hs, ht]⟩

theorem merge_common_bases_eq_lcp2 : ∀ a b : List Nat,
    RewriteMostSpecificCommonBase.merge_common_bases a b = lcp2 a b
  | [], b => by cases b <;> rfl
  | a :: as, [] => rfl
  | a :: as, b :: bs => by
      rw [RewriteMostSpecificCommonBase.merge_common_bases] at *
      rw [List.zip_cons_cons, List.takeWhile_cons]
      by_cases h : a = b
      · have hb : ((a, b).1 == (a, b).2) = true := by simpa using h
        simp only [hb, if_true, List.map_cons]
        rw [← RewriteMostSpecificCommonBase.merge_common_bases,
          merge_common_bases_eq_lcp2 as bs, lcp2, if_pos h]
      · have hb : ((a, b).1 == (a, b).2) = false := by simpa using h
        simp only [hb, Bool.false_eq_true, if_false, List.map_nil]
        rw [lcp2, if_neg h]

theorem lcp2_prefix_left : ∀ a b : List Nat, PrefixOf (lcp2 a b) a
  | [], b => by cases b <;> exact prefix_of_nil _
  | a :: as, [] => prefix_of_nil _
  | a :: as, b :: bs => by
      rw [lcp2]
      by_cases h : a = b
      · rw [if_pos h]
        obtain ⟨t, ht⟩ := lcp2_prefix_left as bs
        exact ⟨t, by rw [List.cons_append, ht]⟩
      · rw [if_neg h]
        exact prefix_of_nil _

theorem lcp2_prefix_right : ∀ a b : List Nat, PrefixOf (lcp2 a b) b
  | [], b => by cases b <;> exact prefix_of_nil _
  | a :: as, [] => prefix_of_nil _
  | a :: as, b :: bs => by
      rw [lcp2]
      by_cases h : a = b
      · rw [if_pos h]
        obtain ⟨t, ht⟩ := lcp2_prefix_right as bs
        exact ⟨t, by rw [List.cons_append, ht, h]⟩
      · rw [if_neg h]
        exact prefix_of_nil _

theorem lcp2_longest : ∀ (p a b : List Nat), PrefixOf p a → PrefixOf p b →
    PrefixOf p (lcp2 a b)
  | [], a, b, _, _ => prefix_of_nil _
  | x :: p, a, b, ha, hb => by
      obtain ⟨s, hs⟩ := ha
      obtain ⟨t, ht⟩ := hb
      rw [List.cons_append] at hs ht
      rw [← hs, ← ht, lcp2, if_pos rfl]
      obtain ⟨u, hu⟩ := lcp2_longest p (p ++ s) (p ++ t) ⟨s, rfl⟩ ⟨t, rfl⟩
      exact ⟨u, by rw [List.cons_append, hu]⟩

theorem foldl_lcp2_spec : ∀ (cs : List (List Nat)) (c : List Nat),
    (PrefixOf (cs.foldl lcp2 c) c ∧ ∀ l ∈ cs, PrefixOf (cs.foldl lcp2 c) l)
    ∧ (∀ p, PrefixOf p c → (∀ l ∈ cs, PrefixOf p l) → PrefixOf p (cs.foldl lcp2 c))
  | [], c => by
      refine ⟨⟨prefix_of_refl c, ?_⟩, ?_⟩
      · intro l hl
        exact absurd hl (List.not_mem_nil l)
      · intro p hp _
        exact hp
  | d :: ds, c => by
      rw [List.foldl_cons]
      obtain ⟨⟨hpc, hall⟩, hmax⟩ := foldl_lcp2_spec ds (lcp2 c d)
      refine ⟨⟨prefix_of_trans hpc (lcp2_prefix_left c d), ?_⟩, ?_⟩
      · intro l hl
        rcases List.mem_cons.1 hl with heq | hl'
        · rw [heq]
          exact prefix_of_trans hpc (lcp2_prefix_right c d)
        · exact hall l hl'
      · intro p hp hps
        apply hmax p (lcp2_longest p c d hp (hps d (List.mem_cons_self _ _)))
        intro l hl
        exact hps l (List.mem_cons_of_mem _ hl)

theorem mapM_as_class_nominal : ∀ ks : List Nat,
    (ks.map Ty.nominal).mapM as_class = some ks
  | [] => rfl
  | k :: ks => by
      rw [List.map_cons, List.mapM_cons]
      rw [mapM_as_class_nominal ks]
      rfl

/-- Claim C8: on a union of nominal classes, `rewrite_Union` of the
Common-Ancestor pass folds the members' single-inheritance ancestor chains
with `merge_common_bases` and returns the most specific (last) element of
the fold, or the union unchanged when the fold is empty — and the fold is
exactly the longest common prefix of all the chains: it is a prefix of every
member's chain, and every common prefix of all the chains is a prefix of it.
In particular (final conjunct) a union of `Dog` and `Cat`, both directly
extending a single-inheritance `Animal`, collapses to `Animal`. -/
theorem c8_common_ancestor (H : Hier) (fuel : Nat) (k : Nat) (ks : List Nat) :
    (∀ a, ((ks.map (RewriteMostSpecificCommonBase.compute_bases H fuel)).foldl
            RewriteMostSpecificCommonBase.merge_common_bases
            (RewriteMostSpecificCommonBase.compute_bases H fuel k)).getLast? = some a →
        RewriteMostSpecificCommonBase.rewrite_Union H fuel ((k :: ks).map .nominal)
          = some (.nominal a))
    ∧ (((ks.map (RewriteMostSpecificCommonBase.compute_bases H fuel)).foldl
            RewriteMostSpecificCommonBase.merge_common_bases
            (RewriteMostSpecificCommonBase.compute_bases H fuel k)).getLast? = none →
        RewriteMostSpecificCommonBase.rewrite_Union H fuel ((k :: ks).map .nominal)
          = some (.union ((k :: ks).map .nominal)))
    ∧ (∀ l ∈ (k :: ks).map (RewriteMostSpecificCommonBase.compute_bases H fuel),
        PrefixOf ((ks.map (RewriteMostSpecificCommonBase.compute_bases H fuel)).foldl
            RewriteMostSpecificCommonBase.merge_common_bases
            (RewriteMostSpecificCommonBase.compute_bases H fuel k)) l)
    ∧ (∀ p, (∀ l ∈ (k :: ks).map (RewriteMostSpecificCommonBase.compute_bases H fuel),
          PrefixOf p l) →
        PrefixOf p ((ks.map (RewriteMostSpecificCommonBase.compute_bases H fuel)).foldl
            RewriteMostSpecificCommonBase.merge_common_bases
            (RewriteMostSpecificCommonBase.compute_bases H fuel k)))
    ∧ RewriteMostSpecificCommonBase.rewrite_Union animalH 10 [.nominal 12, .nominal 13]
        = some (.nominal 11) := by
  have hfoldeq : ∀ (cs : List (List Nat)) (c : List Nat),
      cs.foldl RewriteMostSpecificCommonBase.merge_common_bases c = cs.foldl lcp2 c := by
    intro cs
    induction cs with
    | nil => intro c; rfl
    | cons d ds ih =>
        intro c
        rw [List.foldl_cons, List.foldl_cons, merge_common_bases_eq_lcp2, ih]
  refine ⟨?_, ?_, ?_, ?_, by decide⟩
  · intro a hlast
    rw [RewriteMostSpecificCommonBase.rewrite_Union, mapM_as_class_nominal (k :: ks)]
    simp only []
    rw [hlast]
  · intro hlast
    rw [RewriteMostSpecificCommonBase.rewrite_Union, mapM_as_class_nominal (k :: ks)]
    simp only []
    rw [hlast]
  · intro l hl
    rw [hfoldeq]
    obtain ⟨⟨hpc, hall⟩, _⟩ := foldl_lcp2_spec
      (ks.map (RewriteMostSpecificCommonBase.compute_bases H fuel))
      (RewriteMostSpecificCommonBase.compute_bases H fuel k)
    rcases List.mem_cons.1 (by simpa using hl : l ∈ (RewriteMostSpecificCommonBase.compute_bases H fuel k)
        :: ks.map (RewriteMostSpecificCommonBase.compute_bases H fuel)) with rfl | hl'
    · exact hpc
    · exact hall l hl'
  · intro p hp
    rw [hfoldeq]
    obtain ⟨_, hmax⟩ := foldl_lcp2_spec
      (ks.map (RewriteMostSpecificCommonBase.compute_bases H fuel))
      (RewriteMostSpecificCommonBase.compute_bases H fuel k)
    apply hmax p
    · exact hp _ (by simp)
    · intro l hl
      apply hp l
      rw [List.map_cons]
      exact List.mem_cons_of_mem _ hl

/-- Claim C8, witness: `Union[Dog, Cat]` over `animalH` collapses to
`Animal` via the longest-common-prefix fold. -/
theorem c8_witness :
    RewriteMostSpecificCommonBase.rewrite_Union animalH 10 ((12 :: [13]).map Ty.nominal)
      = some (.nominal 11) :=
  (c8_common_ancestor animalH 10 12 [13]).1 11 (by decide)

/-! ## Claim C3: order-insensitivity of shrink -/

/-- Two Booleans are equal when their truth is equivalent. -/
theorem bool_eq_of_iff {a b : Bool} (h : a = true ↔ b = true) : a = b := by
  cases a <;> cases b <;> simp_all

/-- `List.all` is invariant under permutation. -/
theorem perm_all_eq {α : Type} {l l' : List α} (h : l.Perm l') (p : α → Bool) :
    l.all p = l'.all p := by
  apply bool_eq_of_iff
  rw [List.all_eq_true, List.all_eq_true]
  constructor
  · intro ha x hx
    exact ha x (h.mem_iff.2 hx)
  · intro ha x hx
    exact ha x (h.mem_iff.1 hx)

/-- `List.any` is invariant under permutation. -/
theorem perm_any_eq {α : Type} {l l' : List α} (h : l.Perm l') (p : α → Bool) :
    l.any p = l'.any p := by
  apply bool_eq_of_iff
  rw [List.any_eq_true, List.any_eq_true]
  constructor
  · rintro ⟨x, hx, hp⟩
    exact ⟨x, h.mem_iff.1 hx, hp⟩
  · rintro ⟨x, hx, hp⟩
    exact ⟨x, h.mem_iff.2 hx, hp⟩

/-- When every tail element of a list equals its head, the same holds for any
permutation of the list, whose head is then the same type. -/
theorem perm_head_all_beq {t0 t0' : Ty} {rest rest' : List Ty}
    (h : (t0 :: rest).Perm (t0' :: rest')) (ha : rest.all (· == t0) = true) :
    t0' = t0 ∧ rest'.all (· == t0') = true := by
  have hall : ∀ x ∈ t0 :: rest, x = t0 := by
    intro x hx
    rcases List.mem_cons.1 hx with h' | h'
    · exact h'
    · exact eq_of_beq (List.all_eq_true.1 ha x h')
  have ht0' : t0' = t0 := hall t0' (h.mem_iff.2 (List.mem_cons_self _ _))
  refine ⟨ht0', ?_⟩
  apply List.all_eq_true.2
  intro x hx
  show (x == t0') = true
  have hx0 : x = t0 := hall x (h.mem_iff.2 (List.mem_cons_of_mem _ hx))
  rw [hx0, ht0']
  simp

/-- The key list of a duplicate-free association list is duplicate-free. -/
theorem keys_nodup_of_nodup_keys {α : Type} : ∀ (l : List (String × α)),
    nodup_keys l = true → (l.map (·.1)).Nodup
  | [], _ => List.nodup_nil
  | kv :: rest, h => by
      simp only [nodup_keys, Bool.and_eq_true, Bool.not_eq_true'] at h
      rw [List.map_cons, List.nodup_cons]
      refine ⟨?_, keys_nodup_of_nodup_keys rest h.2⟩
      intro hmem
      obtain ⟨kv', hkv', hk⟩ := List.mem_map.1 hmem
      have : rest.any (·.1 == kv.1) = true := List.any_eq_true.2 ⟨kv', hkv', by simp [hk]⟩
      rw [h.1] at this
      exact Bool.false_ne_true this

/-- `has_key` is membership in the key list. -/
theorem has_key_eq_mem_keys {α : Type} (k : String) (l : List (String × α)) :
    has_key k l = true ↔ k ∈ l.map (·.1) := by
  rw [has_key, List.any_eq_true]
  constructor
  · rintro ⟨kv, hkv, hk⟩
    exact List.mem_map.2 ⟨kv, hkv, by simpa using hk⟩
  · intro h
    obtain ⟨kv, hkv, hk⟩ := List.mem_map.1 h
    exact ⟨kv, hkv, by simp [hk]⟩

/-- Two duplicate-free association lists with the same key set have the same
number of entries. -/
theorem assoc_length_eq {α : Type} (A B : List (String × α))
    (hndA : nodup_keys A = true) (hndB : nodup_keys B = true)
    (hkeys : ∀ k, has_key k A = has_key k B) : A.length = B.length := by
  have hperm : (A.map (·.1)).Perm (B.map (·.1)) := by
    rw [List.perm_ext_iff_of_nodup (keys_nodup_of_nodup_keys A hndA)
      (keys_nodup_of_nodup_keys B hndB)]
    intro k
    rw [← has_key_eq_mem_keys, ← has_key_eq_mem_keys, hkeys k]
  have := hperm.length_eq
  simpa using this

/-- Removing a middle entry of a duplicate-free association list keeps the
keys duplicate-free, and the removed key is absent from the rest. -/
theorem nodup_keys_remove_mid {α : Type} : ∀ (xs : List (String × α)) (y : String × α)
    (zs : List (String × α)), nodup_keys (xs ++ y :: zs) = true →
    nodup_keys (xs ++ zs) = true ∧ has_key y.1 (xs ++ zs) = false
  | [], y, zs, h => by
      simp only [List.nil_append] at h ⊢
      simp only [nodup_keys, Bool.and_eq_true, Bool.not_eq_true'] at h
      exact ⟨h.2, h.1⟩
  | x :: xs, y, zs, h => by
      simp only [List.cons_append] at h ⊢
      simp only [nodup_keys, Bool.and_eq_true, Bool.not_eq_true'] at h
      obtain ⟨hx, hrest⟩ := h
      obtain ⟨h1, h2⟩ := nodup_keys_remove_mid xs y zs hrest
      rw [List.any_append, List.any_cons] at hx
      simp only [Bool.or_eq_false_iff] at hx
      refine ⟨?_, ?_⟩
      · simp only [nodup_keys, Bool.and_eq_true, Bool.not_eq_true']
        refine ⟨?_, h1⟩
        rw [List.any_append]
        simp only [Bool.or_eq_false_iff]
        exact ⟨hx.1, hx.2.2⟩
      · rw [has_key_cons]
        simp only [Bool.or_eq_false_iff]
        refine ⟨?_, h2⟩
        rw [str_beq_comm]
        exact hx.2.1

/-- Association-list lookup ignores a middle entry with a different key. -/
theorem entry_vals_remove_mid : ∀ (B1 : List (String × List Ty)) (k k' : String)
    (vs : List Ty) (B2 : List (String × List Ty)), (k == k') = false →
    entry_vals k' (B1 ++ (k, vs) :: B2) = entry_vals k' (B1 ++ B2)
  | [], k, k', vs, B2, hne => by
      simp only [List.nil_append, entry_vals, hne]
      simp
  | b :: B1, k, k', vs, B2, hne => by
      simp only [List.cons_append, entry_vals]
      by_cases hb : (b.1 == k') = true
      · simp [hb]
      · have hbf : (b.1 == k') = false := by simpa using hb
        simp only [hbf, Bool.false_eq_true, if_false]
        exact entry_vals_remove_mid B1 k k' vs B2 hne

/-- Type-membership of a list in a `contains` test (structural `==` is lawful
for `Ty`). -/
theorem ty_contains_iff (l : List Ty) (a : Ty) : l.contains a = true ↔ a ∈ l := by
  induction l with
  | nil => simp
  | cons b bs ih => simp [List.contains_cons, ih]

/-- Membership in the keep-first deduplication fold: an element is in the
result exactly when it is in the accumulator or in the remaining input. -/
theorem mem_dedup_foldl : ∀ (l acc : List Ty) (x : Ty),
    x ∈ l.foldl (fun acc t => if acc.contains t then acc else acc ++ [t]) acc
      ↔ (x ∈ acc ∨ x ∈ l)
  | [], acc, x => by simp
  | t :: ts, acc, x => by
      rw [List.foldl_cons, mem_dedup_foldl ts _ x]
      by_cases hc : acc.contains t = true
      · rw [if_pos hc]
        have ht : t ∈ acc := (ty_contains_iff acc t).1 hc
        constructor
        · rintro (h' | h')
          · exact Or.inl h'
          · exact Or.inr (List.mem_cons_of_mem _ h')
        · rintro (h' | h')
          · exact Or.inl h'
          · rcases List.mem_cons.1 h' with h'' | h''
            · exact Or.inl (h'' ▸ ht)
            · exact Or.inr h''
      · rw [if_neg hc]
        constructor
        · rintro (h' | h')
          · rcases List.mem_append.1 h' with h'' | h''
            · exact Or.inl h''
            · exact Or.inr (List.mem_cons.2 (Or.inl (by simpa using h'')))
          · exact Or.inr (List.mem_cons_of_mem _ h')
        · rintro (h' | h')
          · exact Or.inl (List.mem_append.2 (Or.inl h'))
          · rcases List.mem_cons.1 h' with h'' | h''
            · exact Or.inl (List.mem_append.2 (Or.inr (by simp [h''])))
            · exact Or.inr h''

/-- Keep-first deduplication preserves membership exactly. -/
theorem mem_dedup_keep_first_iff (x : Ty) (l : List Ty) :
    x ∈ dedup_keep_first l ↔ x ∈ l := by
  rw [dedup_keep_first, mem_dedup_foldl]
  simp

/-- The keep-first deduplication fold yields a duplicate-free list. -/
theorem nodup_dedup_foldl : ∀ (l acc : List Ty), acc.Nodup →
    (l.foldl (fun acc t => if acc.contains t then acc else acc ++ [t]) acc).Nodup
  | [], _, h => h
  | t :: ts, acc, h => by
      rw [List.foldl_cons]
      apply nodup_dedup_foldl ts
      by_cases hc : acc.contains t = true
      · rw [if_pos hc]
        exact h
      · rw [if_neg hc]
        have ht : t ∉ acc := fun hmem => hc ((ty_contains_iff acc t).2 hmem)
        refine List.Nodup.append h (List.nodup_singleton t) ?_
        intro a ha hb
        rw [show a = t by simpa using hb] at ha
        exact ht ha

/-- `dedup_keep_first` yields a duplicate-free list. -/
theorem nodup_dedup_keep_first (l : List Ty) : (dedup_keep_first l).Nodup :=
  nodup_dedup_foldl l [] List.nodup_nil

/-- Actual membership together with a `TyEquiv` witness gives `TyEquivMem`. -/
theorem tyequivmem_of_mem : ∀ (ns : List Ty) (m x : Ty), x ∈ ns → TyEquiv m x →
    TyEquivMem m ns
  | [], _, x, hx, _ => absurd hx (List.not_mem_nil x)
  | b :: bs, m, x, hx, he => by
      rcases List.mem_cons.1 hx with h' | h'
      · exact TyEquivMem.head m b bs (h' ▸ he)
      · exact TyEquivMem.tail m b bs (tyequivmem_of_mem bs m x h' he)

/-- Actual membership of a field with an equivalent value gives
`TyEquivField`. -/
theorem tyequivfield_of_mem : ∀ (r : List (String × Ty)) (k : String) (v v' : Ty),
    (k, v') ∈ r → TyEquiv v v' → TyEquivField k v r
  | [], _, _, v', hmem, _ => absurd hmem (List.not_mem_nil _)
  | kv :: rest, k, v, v', hmem, he => by
      rcases List.mem_cons.1 hmem with h' | h'
      · rw [← h']
        exact TyEquivField.head k v v' rest he
      · exact TyEquivField.tail k v kv rest (tyequivfield_of_mem rest k v v' h' he)

/-- The host union constructor is order-insensitive up to the set semantics of
`Union` members: permuting the argument list yields an equivalent type. -/
theorem make_union_perm_equiv {ts ts' : List Ty} (h : ts.Perm ts') :
    TyEquiv (make_union ts) (make_union ts') := by
  rw [make_union, make_union]
  have hflat : ((ts.map fun t => match t with | .union ms => ms | t => [t]).flatten).Perm
      ((ts'.map fun t => match t with | .union ms => ms | t => [t]).flatten) :=
    (h.map _).flatten
  have hperm : (dedup_keep_first
        ((ts.map fun t => match t with | .union ms => ms | t => [t]).flatten)).Perm
      (dedup_keep_first
        ((ts'.map fun t => match t with | .union ms => ms | t => [t]).flatten)) := by
    rw [List.perm_ext_iff_of_nodup (nodup_dedup_keep_first _) (nodup_dedup_keep_first _)]
    intro x
    rw [mem_dedup_keep_first_iff, mem_dedup_keep_first_iff]
    exact hflat.mem_iff
  rcases hdd : dedup_keep_first
      ((ts.map fun t => match t with | .union ms => ms | t => [t]).flatten) with _ | ⟨x, l⟩
  · rw [hdd] at hperm
    have hnil := (List.nil_perm).1 hperm
    rw [hdd, hnil]
    exact TyEquiv.refl _
  · rcases l with _ | ⟨y, l2⟩
    · rw [hdd] at hperm
      have hsing := List.perm_singleton.1 hperm.symm
      rw [hdd, hsing]
      exact TyEquiv.refl _
    · rw [hdd] at hperm
      rcases hdd' : dedup_keep_first
          ((ts'.map fun t => match t with | .union ms => ms | t => [t]).flatten)
          with _ | ⟨x', l'⟩
      · rw [hdd'] at hperm
        exact absurd hperm.length_eq (by simp)
      · rcases l' with _ | ⟨y', l2'⟩
        · rw [hdd'] at hperm
          exact absurd hperm.length_eq (by simp)
        · rw [hdd, hdd']
          rw [hdd'] at hperm
          refine TyEquiv.union _ _ ?_ ?_
          · intro m hm
            exact tyequivmem_of_mem _ m m (hperm.mem_iff.1 hm) (TyEquiv.refl m)
          · intro n hn
            exact tyequivmem_of_mem _ n n (hperm.mem_iff.2 hn) (TyEquiv.refl n)

/-- Two duplicate-free association lists with the same key sets and
permutation-related per-key value lists have permutation-related
concatenated value lists. -/
theorem assoc_flatten_perm : ∀ (A B : List (String × List Ty)),
    nodup_keys A = true → nodup_keys B = true →
    (∀ k, has_key k A = has_key k B) →
    (∀ k, (entry_vals k A).Perm (entry_vals k B)) →
    ((A.map (·.2)).flatten).Perm ((B.map (·.2)).flatten)
  | [], B, _, _, hkeys, _ => by
      cases B with
      | nil => exact List.Perm.nil
      | cons kv rest =>
          exfalso
          have h1 : has_key kv.1 (kv :: rest) = true := by simp [has_key]
          have h0 : has_key kv.1 ([] : List (String × List Ty)) = true :=
            (hkeys kv.1).trans h1
          exact Bool.false_ne_true h0
  | kv :: rest, B, hndA, hndB, hkeys, hvals => by
      have hkB : has_key kv.1 B = true := by
        rw [← hkeys kv.1]
        simp [has_key]
      obtain ⟨vs', hentB⟩ : ∃ vs', (kv.1, vs') ∈ B :=
        ⟨entry_vals kv.1 B, has_key_mem_entry B kv.1 hkB⟩
      have hhead : kv.2.Perm vs' := by
        have hA : entry_vals kv.1 (kv :: rest) = kv.2 := by simp [entry_vals]
        have hB : entry_vals kv.1 B = vs' := mem_entry_vals B kv.1 vs' hndB hentB
        rw [← hA, ← hB]
        exact hvals kv.1
      obtain ⟨B1, B2, hsplit⟩ := List.append_of_mem hentB
      subst hsplit
      obtain ⟨hndB12, hknone0⟩ := nodup_keys_remove_mid B1 (kv.1, vs') B2 hndB
      have hknone : has_key kv.1 (B1 ++ B2) = false := hknone0
      have hndA' : (rest.any (·.1 == kv.1) = false) ∧ nodup_keys rest = true := by
        simp only [nodup_keys, Bool.and_eq_true, Bool.not_eq_true'] at hndA
        exact hndA
      have hkrest : has_key kv.1 rest = false := hndA'.1
      have hkeys' : ∀ k, has_key k rest = has_key k (B1 ++ B2) := by
        intro k
        by_cases hk : (kv.1 == k) = true
        · have hkeq : kv.1 = k := eq_of_beq hk
          rw [← hkeq, hkrest, hknone]
        · have hkf : (kv.1 == k) = false := by simpa using hk
          have hA : has_key k (kv :: rest) = has_key k rest := by
            rw [has_key_cons, hkf]
            simp
          have hB2 : has_key k (B1 ++ (kv.1, vs') :: B2) = has_key k (B1 ++ B2) := by
            simp [has_key, hkf]
          rw [← hA, hkeys k, hB2]
      have hvals' : ∀ k, (entry_vals k rest).Perm (entry_vals k (B1 ++ B2)) := by
        intro k
        by_cases hk : (kv.1 == k) = true
        · have hkeq : kv.1 = k := eq_of_beq hk
          rw [← hkeq, entry_vals_eq_nil_of_no_key rest kv.1 hkrest,
            entry_vals_eq_nil_of_no_key (B1 ++ B2) kv.1 hknone]
        · have hkf : (kv.1 == k) = false := by simpa using hk
          have hA : entry_vals k (kv :: rest) = entry_vals k rest := by
            simp [entry_vals, hkf]
          have hB2 : entry_vals k (B1 ++ (kv.1, vs') :: B2) = entry_vals k (B1 ++ B2) :=
            entry_vals_remove_mid B1 kv.1 k vs' B2 hkf
          rw [← hA, ← hB2]
          exact hvals k
      have hrec := assoc_flatten_perm rest (B1 ++ B2) hndA'.2 hndB12 hkeys' hvals'
      have hL : (((kv :: rest).map (·.2)).flatten : List Ty)
          = kv.2 ++ (rest.map (·.2)).flatten := by simp
      have hstep : (((B1 ++ (kv.1, vs') :: B2).map (·.2)).flatten : List Ty)
          = (B1.map (·.2)).flatten ++ (vs' ++ (B2.map (·.2)).flatten) := by simp
      have hstep2 : (((B1 ++ B2).map (·.2)).flatten : List Ty)
          = (B1.map (·.2)).flatten ++ (B2.map (·.2)).flatten := by simp
      rw [hL, hstep]
      refine (hhead.append hrec).trans ?_
      rw [hstep2, ← List.append_assoc, ← List.append_assoc]
      exact List.perm_append_comm.append (List.Perm.refl ((B2.map (·.2)).flatten))

/-- The key-membership test of the merged required-field map, in terms of the
per-key collected value lists. -/
theorem has_key_required_result_eq (tds : List Ty) (k : String) :
    has_key k (required_result tds)
      = (has_key k (key_value_types tds)
          && ((collected_required k tds).length == tds.length)) := by
  apply bool_eq_of_iff
  rw [Bool.and_eq_true, required_result,
    has_key_filter_iff (key_value_types tds) _ k (nodup_keys_key_value_types tds),
    entry_vals_key_value_types]

/-- The key-membership test of the not-everywhere-required part of the merged
optional-field map. -/
theorem has_key_optional_base_eq (tds : List Ty) (k : String) :
    has_key k ((key_value_types tds).filter fun kv => kv.2.length != tds.length)
      = (has_key k (key_value_types tds)
          && ((collected_required k tds).length != tds.length)) := by
  apply bool_eq_of_iff
  rw [Bool.and_eq_true,
    has_key_filter_iff (key_value_types tds) _ k (nodup_keys_key_value_types tds),
    entry_vals_key_value_types]

/-- The per-key value list of the merged required-field map. -/
theorem entry_vals_required_result_eq (tds : List Ty) (k : String) :
    entry_vals k (required_result tds)
      = if has_key k (required_result tds) then collected_required k tds else [] := by
  by_cases hk : has_key k (required_result tds) = true
  · rw [if_pos hk]
    exact mem_required_result_vals tds k _ (has_key_mem_entry (required_result tds) k hk)
  · have hkf : has_key k (required_result tds) = false := by simpa using hk
    rw [hkf]
    simp only [Bool.false_eq_true, if_false]
    exact entry_vals_eq_nil_of_no_key _ k hkf

/-- The per-key value list of the not-everywhere-required part of the merged
optional-field map. -/
theorem entry_vals_optional_base_eq (tds : List Ty) (k : String) :
    entry_vals k ((key_value_types tds).filter fun kv => kv.2.length != tds.length)
      = if has_key k ((key_value_types tds).filter fun kv => kv.2.length != tds.length)
        then collected_required k tds else [] := by
  by_cases hk : has_key k ((key_value_types tds).filter
      fun kv => kv.2.length != tds.length) = true
  · rw [if_pos hk]
    have hent := has_key_mem_entry _ k hk
    have := entry_vals_filter (key_value_types tds) _ k _
      (nodup_keys_key_value_types tds) hent
    rw [entry_vals_key_value_types] at this
    exact this
  · have hkf : has_key k ((key_value_types tds).filter
        fun kv => kv.2.length != tds.length) = false := by simpa using hk
    rw [hkf]
    simp only [Bool.false_eq_true, if_false]
    exact entry_vals_eq_nil_of_no_key _ k hkf

/-- The per-key value list of the merged optional-field map splits into the
not-everywhere-required part and the collected optional occurrences. -/
theorem entry_vals_optional_result_eq (tds : List Ty) (k : String) :
    entry_vals k (optional_result tds)
      = entry_vals k ((key_value_types tds).filter fun kv => kv.2.length != tds.length)
          ++ collected_optional k tds := by
  rw [optional_result, entry_vals_add_entries, existing_optional_filter]

/-- The key-membership test of the merged optional-field map. -/
theorem has_key_optional_result_eq (tds : List Ty) (k : String) :
    has_key k (optional_result tds)
      = (has_key k ((key_value_types tds).filter fun kv => kv.2.length != tds.length)
          || tds.any fun td => optional_in k td) := by
  rw [optional_result, has_key_add_entries, existing_optional_any]

/-- The per-key collected required value lists of permuted inputs are
permutations of each other. -/
theorem collected_required_perm {l l' : List Ty} (h : l.Perm l') (k : String) :
    (collected_required k l).Perm (collected_required k l') := by
  rw [collected_required, collected_required]
  exact (h.map _).flatten

/-- The per-key collected optional value lists of permuted inputs are
permutations of each other. -/
theorem collected_optional_perm {l l' : List Ty} (h : l.Perm l') (k : String) :
    (collected_optional k l).Perm (collected_optional k l') := by
  rw [collected_optional, collected_optional]
  exact (h.map _).flatten

/-- The record merge is order-insensitive up to `TyEquiv`, given
order-insensitivity of the recursive per-field shrinks. -/
theorem shrink_tdt_perm (fuel : Nat) (cap : Option Nat) (l l' : List Ty) (h : l.Perm l')
    (IH : ∀ (a b : List Ty), a.Perm b →
      TyEquiv (shrink_types fuel a cap) (shrink_types fuel b cap)) :
    TyEquiv (shrink_typed_dict_types fuel l cap) (shrink_typed_dict_types fuel l' cap) := by
  have hn : l.length = l'.length := h.length_eq
  have hkv : ∀ k, has_key k (key_value_types l) = has_key k (key_value_types l') := by
    intro k
    rw [has_key_key_value_types, has_key_key_value_types]
    exact perm_any_eq h _
  have hcr := fun k => collected_required_perm h k
  have hco := fun k => collected_optional_perm h k
  have hreq_key : ∀ k, has_key k (required_result l) = has_key k (required_result l') := by
    intro k
    rw [has_key_required_result_eq, has_key_required_result_eq, hkv k, (hcr k).length_eq, hn]
  have hob_key : ∀ k,
      has_key k ((key_value_types l).filter fun kv => kv.2.length != l.length)
        = has_key k ((key_value_types l').filter fun kv => kv.2.length != l'.length) := by
    intro k
    rw [has_key_optional_base_eq, has_key_optional_base_eq, hkv k, (hcr k).length_eq, hn]
  have hopt_key : ∀ k, has_key k (optional_result l) = has_key k (optional_result l') := by
    intro k
    rw [has_key_optional_result_eq, has_key_optional_result_eq, hob_key k,
      perm_any_eq h (fun td => optional_in k td)]
  have hreq_vals : ∀ k, (entry_vals k (required_result l)).Perm
      (entry_vals k (required_result l')) := by
    intro k
    rw [entry_vals_required_result_eq, entry_vals_required_result_eq, hreq_key k]
    cases hk : has_key k (required_result l')
    · rw [if_neg Bool.false_ne_true, if_neg Bool.false_ne_true]
    · rw [if_pos rfl, if_pos rfl]
      exact hcr k
  have hob_vals : ∀ k, (entry_vals k ((key_value_types l).filter
        fun kv => kv.2.length != l.length)).Perm
      (entry_vals k ((key_value_types l').filter fun kv => kv.2.length != l'.length)) := by
    intro k
    rw [entry_vals_optional_base_eq, entry_vals_optional_base_eq, hob_key k]
    cases hk : has_key k ((key_value_types l').filter fun kv => kv.2.length != l'.length)
    · rw [if_neg Bool.false_ne_true, if_neg Bool.false_ne_true]
    · rw [if_pos rfl, if_pos rfl]
      exact hcr k
  have hopt_vals : ∀ k, (entry_vals k (optional_result l)).Perm
      (entry_vals k (optional_result l')) := by
    intro k
    rw [entry_vals_optional_result_eq, entry_vals_optional_result_eq]
    exact (hob_vals k).append (hco k)
  have hreq_len : (required_result l).length = (required_result l').length :=
    assoc_length_eq _ _ (nodup_keys_required_result l) (nodup_keys_required_result l')
      hreq_key
  have hopt_len : (optional_result l).length = (optional_result l').length :=
    assoc_length_eq _ _ (nodup_keys_optional_result l) (nodup_keys_optional_result l')
      hopt_key
  simp only [shrink_typed_dict_types]
  rw [← hreq_len, ← hopt_len]
  by_cases hc : cap_exceeded cap
      ((required_result l).length + (optional_result l).length) = true
  · rw [if_pos hc, if_pos hc]
    have hXperm : (((required_result l).map (·.2)
          ++ (optional_result l).map (·.2)).flatten).Perm
        (((required_result l').map (·.2) ++ (optional_result l').map (·.2)).flatten) := by
      rw [List.flatten_append, List.flatten_append]
      exact (assoc_flatten_perm (required_result l) (required_result l')
          (nodup_keys_required_result l) (nodup_keys_required_result l')
          hreq_key hreq_vals).append
        (assoc_flatten_perm (optional_result l) (optional_result l')
          (nodup_keys_optional_result l) (nodup_keys_optional_result l')
          hopt_key hopt_vals)
    refine TyEquiv.container .dict _ _ rfl ?_
    intro p hp
    have hp' : p = ((strTy : Ty), (strTy : Ty))
        ∨ p = (shrink_types fuel (((required_result l).map (·.2)
              ++ (optional_result l).map (·.2)).flatten) cap,
            shrink_types fuel (((required_result l').map (·.2)
              ++ (optional_result l').map (·.2)).flatten) cap) := by
      simpa using hp
    rcases hp' with hp' | hp'
    · rw [hp']
      exact TyEquiv.refl _
    · rw [hp']
      exact IH _ _ hXperm
  · have hcf : cap_exceeded cap
        ((required_result l).length + (optional_result l).length) = false := by
      simpa using hc
    rw [hcf]
    simp only [Bool.false_eq_true, if_false]
    rw [make_typed_dict, make_typed_dict]
    refine TyEquiv.record _ _ _ _ ?_ ?_ ?_ ?_
    · intro kv hkv
      obtain ⟨kv0, hkv0, rfl⟩ := List.mem_map.1 hkv
      have hkey : has_key kv0.1 (required_result l) = true :=
        (has_key_iff_exists kv0.1 _).2 ⟨kv0.2, hkv0⟩
      have hkey' : has_key kv0.1 (required_result l') = true := by
        rw [← hreq_key kv0.1]
        exact hkey
      have hent' : (kv0.1, entry_vals kv0.1 (required_result l')) ∈ required_result l' :=
        has_key_mem_entry _ kv0.1 hkey'
      have hv0 : kv0.2 = collected_required kv0.1 l :=
        mem_required_result_vals l kv0.1 kv0.2 hkv0
      have hv' : entry_vals kv0.1 (required_result l') = collected_required kv0.1 l' :=
        mem_required_result_vals l' kv0.1 _ hent'
      have hperm0 : kv0.2.Perm (entry_vals kv0.1 (required_result l')) := by
        rw [hv0, hv']
        exact hcr kv0.1
      exact tyequivfield_of_mem _ kv0.1 _ _ (List.mem_map.2 ⟨_, hent', rfl⟩) (IH _ _ hperm0)
    · intro kv hkv
      obtain ⟨kv0, hkv0, rfl⟩ := List.mem_map.1 hkv
      have hkey : has_key kv0.1 (required_result l') = true :=
        (has_key_iff_exists kv0.1 _).2 ⟨kv0.2, hkv0⟩
      have hkey' : has_key kv0.1 (required_result l) = true := by
        rw [hreq_key kv0.1]
        exact hkey
      have hent' : (kv0.1, entry_vals kv0.1 (required_result l)) ∈ required_result l :=
        has_key_mem_entry _ kv0.1 hkey'
      have hv0 : kv0.2 = collected_required kv0.1 l' :=
        mem_required_result_vals l' kv0.1 kv0.2 hkv0
      have hv' : entry_vals kv0.1 (required_result l) = collected_required kv0.1 l :=
        mem_required_result_vals l kv0.1 _ hent'
      have hperm0 : kv0.2.Perm (entry_vals kv0.1 (required_result l)) := by
        rw [hv0, hv']
        exact (hcr kv0.1).symm
      exact tyequivfield_of_mem _ kv0.1 _ _ (List.mem_map.2 ⟨_, hent', rfl⟩) (IH _ _ hperm0)
    · intro kv hkv
      obtain ⟨kv0, hkv0, rfl⟩ := List.mem_map.1 hkv
      have hkey : has_key kv0.1 (optional_result l) = true :=
        (has_key_iff_exists kv0.1 _).2 ⟨kv0.2, hkv0⟩
      have hkey' : has_key kv0.1 (optional_result l') = true := by
        rw [← hopt_key kv0.1]
        exact hkey
      have hent' : (kv0.1, entry_vals kv0.1 (optional_result l')) ∈ optional_result l' :=
        has_key_mem_entry _ kv0.1 hkey'
      have hv0 : entry_vals kv0.1 (optional_result l) = kv0.2 :=
        mem_entry_vals _ kv0.1 kv0.2 (nodup_keys_optional_result l) hkv0
      have hperm0 : kv0.2.Perm (entry_vals kv0.1 (optional_result l')) := by
        rw [← hv0]
        exact hopt_vals kv0.1
      exact tyequivfield_of_mem _ kv0.1 _ _ (List.mem_map.2 ⟨_, hent', rfl⟩) (IH _ _ hperm0)
    · intro kv hkv
      obtain ⟨kv0, hkv0, rfl⟩ := List.mem_map.1 hkv
      have hkey : has_key kv0.1 (optional_result l') = true :=
        (has_key_iff_exists kv0.1 _).2 ⟨kv0.2, hkv0⟩
      have hkey' : has_key kv0.1 (optional_result l) = true := by
        rw [hopt_key kv0.1]
        exact hkey
      have hent' : (kv0.1, entry_vals kv0.1 (optional_result l)) ∈ optional_result l :=
        has_key_mem_entry _ kv0.1 hkey'
      have hv0 : entry_vals kv0.1 (optional_result l') = kv0.2 :=
        mem_entry_vals _ kv0.1 kv0.2 (nodup_keys_optional_result l') hkv0
      have hperm0 : kv0.2.Perm (entry_vals kv0.1 (optional_result l)) := by
        rw [← hv0]
        exact (hopt_vals kv0.1).symm
      exact tyequivfield_of_mem _ kv0.1 _ _ (List.mem_map.2 ⟨_, hent', rfl⟩) (IH _ _ hperm0)

/-- Unfolding of `shrink_types` at a non-empty argument list. -/
theorem shrink_types_cons (fuel : Nat) (t0 : Ty) (rest : List Ty) (cap : Option Nat) :
    shrink_types (fuel+1) (t0 :: rest) cap =
      if (t0 :: rest).all is_anonymous_typed_dict then
        shrink_typed_dict_types fuel (t0 :: rest) cap
      else if rest.all (· == t0) then t0
      else if (t0 :: rest).all is_list then
        .container .list [shrink_types fuel ((t0 :: rest).map list_arg) cap]
      else make_union ((t0 :: rest).map (RewriteAnonymousTypedDictToDict.rewrite fuel)) := rfl

/-- `shrink_types` maps permuted inputs to equivalent results, at every fuel
and cap (the permuted run is compared at the same fuel). -/
theorem shrink_types_perm : ∀ (fuel : Nat) (l l' : List Ty) (cap : Option Nat),
    l.Perm l' → TyEquiv (shrink_types fuel l cap) (shrink_types fuel l' cap)
  | 0, _, _, _, _ => TyEquiv.refl .any
  | _+1, [], _, _, h => by
      rw [List.nil_perm.1 h]
      exact TyEquiv.refl _
  | _+1, t0 :: rest, [], _, h => absurd (List.nil_perm.1 h.symm) (List.cons_ne_nil t0 rest)
  | fuel+1, t0 :: rest, t0' :: rest', cap, h => by
      rw [shrink_types_cons, shrink_types_cons]
      have hg1 : (t0' :: rest').all is_anonymous_typed_dict
          = (t0 :: rest).all is_anonymous_typed_dict := (perm_all_eq h _).symm
      rw [hg1]
      by_cases h1 : (t0 :: rest).all is_anonymous_typed_dict = true
      · rw [if_pos h1, if_pos h1]
        exact shrink_tdt_perm fuel cap _ _ h
          (fun a b hp => shrink_types_perm fuel a b cap hp)
      · have h1f : (t0 :: rest).all is_anonymous_typed_dict = false := by simpa using h1
        rw [h1f]
        simp only [Bool.false_eq_true, if_false]
        by_cases h2 : rest.all (· == t0) = true
        · obtain ⟨he, h2'⟩ := perm_head_all_beq h h2
          rw [if_pos h2, if_pos h2', he]
          exact TyEquiv.refl _
        · have h2f : rest.all (· == t0) = false := by simpa using h2
          have h2f' : rest'.all (· == t0') = false := by
            cases hx : rest'.all (· == t0')
            · rfl
            · obtain ⟨he, hr⟩ := perm_head_all_beq h.symm hx
              rw [h2f] at hr
              exact absurd hr Bool.false_ne_true
          rw [h2f, h2f']
          simp only [Bool.false_eq_true, if_false]
          have hg3 : (t0' :: rest').all is_list = (t0 :: rest).all is_list :=
            (perm_all_eq h _).symm
          rw [hg3]
          by_cases h3 : (t0 :: rest).all is_list = true
          · rw [if_pos h3, if_pos h3]
            refine TyEquiv.container .list _ _ rfl ?_
            intro p hp
            rw [show p = (shrink_types fuel ((t0 :: rest).map list_arg) cap,
                shrink_types fuel ((t0' :: rest').map list_arg) cap) by simpa using hp]
            exact shrink_types_perm fuel _ _ cap (h.map list_arg)
          · have h3f : (t0 :: rest).all is_list = false := by simpa using h3
            rw [h3f]
            simp only [Bool.false_eq_true, if_false]
            exact make_union_perm_equiv (h.map _)

/-- Claim C3: `shrink_types` is order-insensitive — for every finite sequence
of types, every permutation of it, and every `max_typed_dict_size` cap, the
shrink of the permuted sequence is structurally equal (`TyEquiv`, the host's
equality with set semantics for `Union` members and for field maps) to the
shrink of the original sequence. -/
theorem c3_shrink_order_insensitive (fuel : Nat) (types types' : List Ty)
    (cap : Option Nat) (h : types.Perm types') :
    TyEquiv (shrink_types fuel types cap) (shrink_types fuel types' cap) :=
  shrink_types_perm fuel types types' cap h

/-- Claim C3, witness: `[int, str]` and its transposition `[str, int]` shrink
to equivalent types. -/
theorem c3_witness :
    ([intTy, strTy] : List Ty).Perm [strTy, intTy]
      ∧ TyEquiv (shrink_types 3 [intTy, strTy] none) (shrink_types 3 [strTy, intTy] none) :=
  ⟨List.Perm.swap strTy intTy [],
   c3_shrink_order_insensitive 3 [intTy, strTy] [strTy, intTy] none
     (List.Perm.swap strTy intTy [])⟩

/-! ## Claim C9: the module-faithful embedding of the rewriting engine

The generic rewriting engine dispatches a container alias to a
`rewrite_<Name>` hook via the alias's capitalized generic name, and the
shared `_rewrite_container` helper begins with the test
`container.__module__ != "typing"`: an alias defined outside the `typing`
module — the PEP 585 builtins aliases `list[...]`, `set[...]`, `tuple[...]`
that `get_type` constructs and the `dict[str, ...]` alias the demote path of
`shrink_typed_dict_types` constructs — is routed to
`rewrite_malformed_container` and returned unchanged, so the engine never
traverses below it.  A `typing`-module alias is rebuilt by
`make_container_type` from the builtin container class (`dict`, `list`,
`set`, `tuple`; `rewrite_Generator` alone passes `typing.Generator`), so one
traversal converts a `typing` alias into a builtins alias with rewritten
arguments.  `DefaultDict` and `Iterator` aliases have no `rewrite_` hook and
fall to `generic_rewrite`, which returns them unchanged.

The untagged embedding above ignores the module distinction (its container
branches over-approximate traversal, which none of the union-level claims
exercise).  The pipeline-idempotence claim turns exactly on this check, so
this namespace re-embeds value inference and the four standard passes over a
type algebra whose container nodes carry their defining module. -/

namespace Mod

/-- The defining module of a container alias, as far as the engine's
`__module__ != "typing"` test distinguishes: the `typing` module, or any
other module (`builtins` for the PEP 585 aliases). -/
inductive Origin where
  | typing
  | builtins
deriving DecidableEq, Repr

/-- The embedded type algebra with module-tagged container aliases.  All
other nodes are as in the untagged `Ty`; unions carry no tag because
`typing.Union` and PEP 604 `types.UnionType` objects compare equal and every
pass treats them alike (their `rewrite_Union` overrides never consult the
module, and the inherited `rewrite_Union` routes both to the
malformed-container fallback). -/
inductive Ty where
  | any
  | callable
  | nominal (c : Nat)
  | metaType (c : Nat)
  | typeVar (n : String)
  | container (m : Origin) (k : CKind) (es : List Ty)
  | record (req opt : List (String × Ty))
  | union (ms : List Ty)
deriving Repr

mutual

/-- Structural equality of module-tagged embedded types (`types_equal` / `==`
on type objects: a `typing` alias and a builtins alias of the same container
never compare equal in the host, so the tag participates in equality). -/
def Ty.beq : Ty → Ty → Bool
  | .any, .any => true
  | .callable, .callable => true
  | .nominal c, .nominal c' => c == c'
  | .metaType c, .metaType c' => c == c'
  | .typeVar n, .typeVar n' => n == n'
  | .container m k es, .container m' k' es' => m == m' && k == k' && Ty.beqList es es'
  | .record r o, .record r' o' => Ty.beqFields r r' && Ty.beqFields o o'
  | .union ms, .union ns => Ty.beqList ms ns
  | _, _ => false

def Ty.beqList : List Ty → List Ty → Bool
  | [], [] => true
  | a :: as, b :: bs => Ty.beq a b && Ty.beqList as bs
  | _, _ => false

def Ty.beqFields : List (String × Ty) → List (String × Ty) → Bool
  | [], [] => true
  | (k, v) :: r, (k', v') :: r' => k == k' && Ty.beq v v' && Ty.beqFields r r'
  | _, _ => false

end

instance : BEq Ty := ⟨Ty.beq⟩

def intTy : Ty := .nominal int_id

def strTy : Ty := .nominal str_id

def noneTy : Ty := .nominal none_type_id

/-- `is_anonymous_typed_dict` over the tagged algebra. -/
def is_anonymous_typed_dict : Ty → Bool
  | .record _ _ => true
  | _ => false

/-- `is_list` over the tagged algebra: `name_of_generic` reports the
capitalized generic name for the `typing` alias and the builtins alias
alike, so both flavours count. -/
def is_list : Ty → Bool
  | .container _ .list _ => true
  | _ => false

/-- First type argument of a `List` alias. -/
def list_arg : Ty → Ty
  | .container _ .list (e :: _) => e
  | _ => .any

/-- `make_typed_dict` over the tagged algebra. -/
def make_typed_dict (required_fields optional_fields : List (String × Ty)) : Ty :=
  .record required_fields optional_fields

def required_fields_of : Ty → List (String × Ty)
  | .record r _ => r
  | _ => []

def optional_fields_of : Ty → List (String × Ty)
  | .record _ o => o
  | _ => []

/-- Keep-first deduplication by structural equality, over the tagged
algebra. -/
def dedup_keep_first (ts : List Ty) : List Ty :=
  ts.foldl (fun acc t => if acc.contains t then acc else acc ++ [t]) []

/-- The host `Union[tuple(ts)]` constructor over the tagged algebra. -/
def make_union (ts : List Ty) : Ty :=
  let flat := (ts.map fun t => match t with | .union ms => ms | t => [t]).flatten
  match dedup_keep_first flat with
  | [x] => x
  | l => .union l

/-- `defaultdict(list)` accumulation, over the tagged algebra. -/
def append_value : List (String × List Ty) → String → Ty → List (String × List Ty)
  | [], k, v => [(k, [v])]
  | kv :: rest, k, v =>
      if kv.1 == k then (kv.1, kv.2 ++ [v]) :: rest
      else kv :: append_value rest k v

def add_entries (base : List (String × List Ty)) (items : List (String × Ty)) :
    List (String × List Ty) :=
  items.foldl (fun a kv => append_value a kv.1 kv.2) base

def key_value_types (typed_dicts : List Ty) : List (String × List Ty) :=
  typed_dicts.foldl (fun acc td => add_entries acc (required_fields_of td)) []

def existing_optional_fields (typed_dicts : List Ty) : List (String × Ty) :=
  typed_dicts.foldl (fun acc td => acc ++ optional_fields_of td) []

def required_result (typed_dicts : List Ty) : List (String × List Ty) :=
  (key_value_types typed_dicts).filter fun kv => kv.2.length == typed_dicts.length

def optional_result (typed_dicts : List Ty) : List (String × List Ty) :=
  add_entries
    ((key_value_types typed_dicts).filter fun kv => kv.2.length != typed_dicts.length)
    (existing_optional_fields typed_dicts)

/-- `GenericTypeRewriter._rewrite_container` together with the hook dispatch,
for a pass whose element rewriting is `rec`: `DefaultDict` and `Iterator`
aliases have no hook and are returned unchanged by `generic_rewrite`; an
alias from outside the `typing` module is returned unchanged by
`rewrite_malformed_container`; a `typing` alias is rebuilt from the builtin
container class (keeping `typing.Generator` for `rewrite_Generator`) with
its arguments rewritten by `rec`. -/
def rewrite_container (rec : Ty → Ty) (m : Origin) (k : CKind) (es : List Ty) : Ty :=
  match k with
  | .defaultDict => .container m k es
  | .iterator => .container m k es
  | _ =>
    match m with
    | .builtins => .container m k es
    | .typing =>
      match k with
      | .generator => .container .typing .generator (es.map rec)
      | _ => .container .builtins k (es.map rec)

/-- `RewriteAnonymousTypedDictToDict.rewrite` over the tagged algebra:
the `Dict[Any, Any]` and `Dict[str, Union[...]]` results are `typing`
aliases; union members are untraversed (the inherited `rewrite_Union`
rebuilds a PEP 604 union, whose module is `types`, and the
malformed-container fallback returns it). -/
def RewriteAnonymousTypedDictToDict.rewrite : Nat → Ty → Ty
  | 0, t => t
  | fuel+1, t =>
    match t with
    | .record r o =>
        let all_value_types := r.map (·.2) ++ o.map (·.2)
        if all_value_types.isEmpty then .container .typing .dict [.any, .any]
        else
          .container .typing .dict
            [strTy,
             make_union (all_value_types.map (RewriteAnonymousTypedDictToDict.rewrite fuel))]
    | .union ms => .union ms
    | .container m k es =>
        rewrite_container (RewriteAnonymousTypedDictToDict.rewrite fuel) m k es
    | t => t

/-- `shrink_types` over the tagged algebra: the demote path constructs the
builtins alias `dict[str, ...]` (line 121 of the source) while the all-lists
path constructs the `typing` alias `List[...]` (line 156). -/
def shrink_types : Nat → List Ty → Option Nat → Ty
  | 0, _, _ => .any
  | fuel+1, types, max_typed_dict_size =>
    match types with
    | [] => .any
    | t0 :: rest =>
      if (t0 :: rest).all is_anonymous_typed_dict then
        let required := required_result (t0 :: rest)
        let optional := optional_result (t0 :: rest)
        if cap_exceeded max_typed_dict_size (required.length + optional.length) then
          .container .builtins .dict
            [strTy,
             shrink_types fuel ((required.map (·.2) ++ optional.map (·.2)).flatten)
               max_typed_dict_size]
        else
          make_typed_dict
            (required.map fun kv => (kv.1, shrink_types fuel kv.2 max_typed_dict_size))
            (optional.map fun kv => (kv.1, shrink_types fuel kv.2 max_typed_dict_size))
      else if rest.all (· == t0) then t0
      else if (t0 :: rest).all is_list then
        .container .typing .list
          [shrink_types fuel ((t0 :: rest).map list_arg) max_typed_dict_size]
      else
        make_union ((t0 :: rest).map (RewriteAnonymousTypedDictToDict.rewrite fuel))

/-- `get_type` over the tagged algebra: `list`, `set` and `tuple` values
yield PEP 585 builtins aliases; dicts yield either the `typing` aliases
`Dict[Any, Any]` / `Dict[key, value]` or an anonymous TypedDict. -/
def get_type : Nat → Option Nat → Value → Ty
  | 0, _, _ => .any
  | fuel+1, max_typed_dict_size, v =>
    match v with
    | .vNone => noneTy
    | .vInt _ => intTy
    | .vStr _ => strTy
    | .vList xs =>
        .container .builtins .list
          [shrink_types fuel (xs.map (get_type fuel max_typed_dict_size)) max_typed_dict_size]
    | .vSet xs =>
        .container .builtins .set
          [shrink_types fuel (xs.map (get_type fuel max_typed_dict_size)) max_typed_dict_size]
    | .vTuple xs => .container .builtins .tupleF (xs.map (get_type fuel max_typed_dict_size))
    | .vDict pairs =>
        if pairs.isEmpty then .container .typing .dict [.any, .any]
        else if pairs.all (fun p => p.1.isStr) && dict_fits max_typed_dict_size pairs.length then
          make_typed_dict
            (pairs.map fun p => (p.1.strVal, get_type fuel max_typed_dict_size p.2)) []
        else
          .container .typing .dict
            [shrink_types fuel (pairs.map fun p => get_type fuel max_typed_dict_size p.1)
               max_typed_dict_size,
             shrink_types fuel (pairs.map fun p => get_type fuel max_typed_dict_size p.2)
               max_typed_dict_size]

/-- `get_dict_type` over the tagged algebra (the `vDict` branch of
`get_type`, stated separately). -/
def get_dict_type (fuel : Nat) (max_typed_dict_size : Option Nat)
    (pairs : List (Value × Value)) : Ty :=
  if pairs.isEmpty then .container .typing .dict [.any, .any]
  else if pairs.all (fun p => p.1.isStr) && dict_fits max_typed_dict_size pairs.length then
    make_typed_dict
      (pairs.map fun p => (p.1.strVal, get_type fuel max_typed_dict_size p.2)) []
  else
    .container .typing .dict
      [shrink_types fuel (pairs.map fun p => get_type fuel max_typed_dict_size p.1)
         max_typed_dict_size,
       shrink_types fuel (pairs.map fun p => get_type fuel max_typed_dict_size p.2)
         max_typed_dict_size]

theorem get_type_vDict (fuel : Nat) (cap : Option Nat) (pairs : List (Value × Value)) :
    get_type (fuel+1) cap (.vDict pairs) = get_dict_type fuel cap pairs := rfl

/-- `RemoveEmptyContainers._is_empty` over the tagged algebra. -/
def RemoveEmptyContainers.is_empty : Ty → Bool
  | .container _ _ es => !es.isEmpty && es.all (· == Ty.any)
  | .union ms => !ms.isEmpty && ms.all (· == Ty.any)
  | _ => false

/-- `RemoveEmptyContainers.rewrite` over the tagged algebra (the union branch
keeps its rebuild-from-original-args bug, so unions come back with all their
members). -/
def RemoveEmptyContainers.rewrite : Nat → Ty → Ty
  | 0, t => t
  | fuel+1, t =>
    match t with
    | .union ms =>
        let elems :=
          (ms.filter fun e => !RemoveEmptyContainers.is_empty e).map
            (RemoveEmptyContainers.rewrite fuel)
        if elems.isEmpty then .union ms else .union ms
    | .container m k es => rewrite_container (RemoveEmptyContainers.rewrite fuel) m k es
    | .record r o =>
        .record (r.map fun kv => (kv.1, RemoveEmptyContainers.rewrite fuel kv.2))
          (o.map fun kv => (kv.1, RemoveEmptyContainers.rewrite fuel kv.2))
    | t => t

/-- `RewriteConfigDict.rewrite_Union` member scan over the tagged algebra:
`is_generic_of(e, Dict)` goes by the generic's name, so `typing` and
builtins `Dict` members both qualify, while the key comparison is host
equality and hence tag-sensitive. -/
def RewriteConfigDict.scan_values (key : Ty) : List Ty → Option (List Ty)
  | [] => some []
  | .container _ .dict [k, v] :: rest =>
      if k == key then (RewriteConfigDict.scan_values key rest).map (v :: ·) else none
  | _ => none

/-- `RewriteConfigDict.rewrite` over the tagged algebra; the collapsed result
`Dict[K, Union[V1, ..., VN]]` is a `typing` alias. -/
def RewriteConfigDict.rewrite : Nat → Ty → Ty
  | 0, t => t
  | fuel+1, t =>
    match t with
    | .union ms =>
        (match ms with
         | .container _ .dict [k, v] :: rest =>
            (match RewriteConfigDict.scan_values k rest with
             | some vs => .container .typing .dict [k, make_union (v :: vs)]
             | none => .union ms)
         | _ => .union ms)
    | .container m k es => rewrite_container (RewriteConfigDict.rewrite fuel) m k es
    | .record r o =>
        .record (r.map fun kv => (kv.1, RewriteConfigDict.rewrite fuel kv.2))
          (o.map fun kv => (kv.1, RewriteConfigDict.rewrite fuel kv.2))
    | t => t

/-- `RewriteLargeUnion._rewrite_to_tuple` over the tagged algebra; the
collapsed result `Tuple[V, ...]` is a `typing` alias. -/
def RewriteLargeUnion.rewrite_to_tuple (ms : List Ty) : Option Ty :=
  match ms with
  | .container _ .tupleF (v0 :: vs) :: rest =>
      if (v0 :: vs).all (· == v0)
         && rest.all (fun t =>
              match t with
              | .container _ .tupleF es => !es.isEmpty && es.all (· == v0)
              | _ => false)
      then some (.container .typing .tupleV [v0]) else none
  | _ => none

/-- The class id of a union member, when the member is a plain class (see
`as_class` of the untagged embedding). -/
def as_class : Ty → Option Nat
  | .nominal c => some c
  | _ => none

/-- `RewriteLargeUnion.rewrite` over the tagged algebra. -/
def RewriteLargeUnion.rewrite (H : Hier) (max_union_len : Nat) : Nat → Ty → Ty
  | 0, t => t
  | fuel+1, t =>
    match t with
    | .union ms =>
        if ms.length ≤ max_union_len then .union ms
        else
          (match RewriteLargeUnion.rewrite_to_tuple ms with
           | some rw => rw
           | none =>
             match ms.mapM as_class with
             | some (k0 :: ks) =>
                 (match (H.mro k0).find?
                     (fun anc => anc != object_id
                       && (k0 :: ks).all fun c => (H.mro c).contains anc) with
                  | some anc => .nominal anc
                  | none => .any)
             | _ => .any)
    | .container m k es =>
        rewrite_container (RewriteLargeUnion.rewrite H max_union_len fuel) m k es
    | .record r o =>
        .record (r.map fun kv => (kv.1, RewriteLargeUnion.rewrite H max_union_len fuel kv.2))
          (o.map fun kv => (kv.1, RewriteLargeUnion.rewrite H max_union_len fuel kv.2))
    | t => t

/-- `RewriteGenerator.rewrite` over the tagged algebra: the `rewrite_Generator`
override fires on any `Generator` alias without a module check (its `Iterator`
result is a `typing` alias, and in the unchanged branch the original alias is
returned as is); every other container goes through the inherited hooks. -/
def RewriteGenerator.rewrite : Nat → Ty → Ty
  | 0, t => t
  | fuel+1, t =>
    match t with
    | .container m .generator [y, s, r] =>
        if s == noneTy && r == noneTy then .container .typing .iterator [y]
        else .container m .generator [y, s, r]
    | .union ms => .union ms
    | .container m k es => rewrite_container (RewriteGenerator.rewrite fuel) m k es
    | .record r o =>
        .record (r.map fun kv => (kv.1, RewriteGenerator.rewrite fuel kv.2))
          (o.map fun kv => (kv.1, RewriteGenerator.rewrite fuel kv.2))
    | t => t

/-- `DEFAULT_REWRITER` over the tagged algebra. -/
def DEFAULT_REWRITER.rewrite (H : Hier) (fuel : Nat) (t : Ty) : Ty :=
  RewriteGenerator.rewrite fuel
    (RewriteLargeUnion.rewrite H 5 fuel
      (RewriteConfigDict.rewrite fuel
        (RemoveEmptyContainers.rewrite fuel t)))

/-- A type node every pass returns unchanged without traversing it: the
leaves (`Any`, `Callable`, classes, `type[...]`, type variables, which have
no matching hook), a non-`typing` container alias other than a `Generator`
(sealed by the module check of `_rewrite_container`, whatever its interior),
and a `DefaultDict` or `Iterator` alias of either module (no hook at all).
`Generator` aliases are excluded because `RewriteGenerator.rewrite_Generator`
fires on them without a module check; records and unions are excluded
because the passes rebuild or rewrite them. -/
def sealed : Ty → Bool
  | .container .builtins k _ => !(k == CKind.generator)
  | .container .typing k _ => k == CKind.defaultDict || k == CKind.iterator
  | .record _ _ => false
  | .union _ => false
  | _ => true

theorem sealed_remove_empty : ∀ (fuel : Nat) (t : Ty), sealed t = true →
    RemoveEmptyContainers.rewrite fuel t = t
  | 0, _, _ => rfl
  | fuel+1, t, h => by
      cases t with
      | container m k es =>
          cases m <;> cases k <;>
            simp_all [sealed, RemoveEmptyContainers.rewrite, rewrite_container]
      | union ms => simp [sealed] at h
      | record r o => simp [sealed] at h
      | any => rfl
      | callable => rfl
      | nominal c => rfl
      | metaType c => rfl
      | typeVar n => rfl

theorem sealed_config_dict : ∀ (fuel : Nat) (t : Ty), sealed t = true →
    RewriteConfigDict.rewrite fuel t = t
  | 0, _, _ => rfl
  | fuel+1, t, h => by
      cases t with
      | container m k es =>
          cases m <;> cases k <;>
            simp_all [sealed, RewriteConfigDict.rewrite, rewrite_container]
      | union ms => simp [sealed] at h
      | record r o => simp [sealed] at h
      | any => rfl
      | callable => rfl
      | nominal c => rfl
      | metaType c => rfl
      | typeVar n => rfl

theorem sealed_large_union : ∀ (H : Hier) (max_union_len fuel : Nat) (t : Ty),
    sealed t = true → RewriteLargeUnion.rewrite H max_union_len fuel t = t
  | _, _, 0, _, _ => rfl
  | H, max_union_len, fuel+1, t, h => by
      cases t with
      | container m k es =>
          cases m <;> cases k <;>
            simp_all [sealed, RewriteLargeUnion.rewrite, rewrite_container]
      | union ms => simp [sealed] at h
      | record r o => simp [sealed] at h
      | any => rfl
      | callable => rfl
      | nominal c => rfl
      | metaType c => rfl
      | typeVar n => rfl

theorem sealed_generator_pass : ∀ (fuel : Nat) (t : Ty), sealed t = true →
    RewriteGenerator.rewrite fuel t = t
  | 0, _, _ => rfl
  | fuel+1, t, h => by
      cases t with
      | container m k es =>
          cases m <;> cases k <;>
            simp_all [sealed, RewriteGenerator.rewrite, rewrite_container]
      | union ms => simp [sealed] at h
      | record r o => simp [sealed] at h
      | any => rfl
      | callable => rfl
      | nominal c => rfl
      | metaType c => rfl
      | typeVar n => rfl

/-- A sealed node passes through the whole standard pipeline unchanged. -/
theorem sealed_pipeline (H : Hier) (fuel : Nat) (t : Ty) (h : sealed t = true) :
    DEFAULT_REWRITER.rewrite H fuel t = t := by
  rw [DEFAULT_REWRITER.rewrite, sealed_remove_empty fuel t h, sealed_config_dict fuel t h,
    sealed_large_union H 5 fuel t h, sealed_generator_pass fuel t h]

theorem remove_empty_record (fuel : Nat) (r o : List (String × Ty)) :
    RemoveEmptyContainers.rewrite (fuel+1) (.record r o)
      = .record (r.map fun kv => (kv.1, RemoveEmptyContainers.rewrite fuel kv.2))
          (o.map fun kv => (kv.1, RemoveEmptyContainers.rewrite fuel kv.2)) := rfl

theorem config_dict_record (fuel : Nat) (r o : List (String × Ty)) :
    RewriteConfigDict.rewrite (fuel+1) (.record r o)
      = .record (r.map fun kv => (kv.1, RewriteConfigDict.rewrite fuel kv.2))
          (o.map fun kv => (kv.1, RewriteConfigDict.rewrite fuel kv.2)) := rfl

theorem large_union_record (H : Hier) (max_union_len fuel : Nat)
    (r o : List (String × Ty)) :
    RewriteLargeUnion.rewrite H max_union_len (fuel+1) (.record r o)
      = .record (r.map fun kv => (kv.1, RewriteLargeUnion.rewrite H max_union_len fuel kv.2))
          (o.map fun kv => (kv.1, RewriteLargeUnion.rewrite H max_union_len fuel kv.2)) := rfl

theorem generator_record (fuel : Nat) (r o : List (String × Ty)) :
    RewriteGenerator.rewrite (fuel+1) (.record r o)
      = .record (r.map fun kv => (kv.1, RewriteGenerator.rewrite fuel kv.2))
          (o.map fun kv => (kv.1, RewriteGenerator.rewrite fuel kv.2)) := rfl

/-- Every pass rebuilds an anonymous TypedDict field-wise, so the chain does
too, with the per-field chain one fuel level down. -/
theorem pipeline_record (H : Hier) (fuel : Nat) (r o : List (String × Ty)) :
    DEFAULT_REWRITER.rewrite H (fuel+1) (.record r o)
      = .record (r.map fun kv => (kv.1, DEFAULT_REWRITER.rewrite H fuel kv.2))
          (o.map fun kv => (kv.1, DEFAULT_REWRITER.rewrite H fuel kv.2)) := by
  simp only [DEFAULT_REWRITER.rewrite, remove_empty_record, config_dict_record,
    large_union_record, generator_record, List.map_map]
  rfl

theorem remove_empty_typing_dict (fuel : Nat) (es : List Ty) :
    RemoveEmptyContainers.rewrite (fuel+1) (.container .typing .dict es)
      = .container .builtins .dict (es.map (RemoveEmptyContainers.rewrite fuel)) := rfl

/-- A `typing.Dict` alias is converted by the first pass into a builtins
`dict` alias with rewritten arguments, which the module check then seals
from the remaining three passes. -/
theorem pipeline_typing_dict (H : Hier) (fuel : Nat) (es : List Ty) :
    DEFAULT_REWRITER.rewrite H (fuel+1) (.container .typing .dict es)
      = .container .builtins .dict (es.map (RemoveEmptyContainers.rewrite fuel)) := by
  have hs : sealed (Ty.container .builtins .dict
      (es.map (RemoveEmptyContainers.rewrite fuel))) = true := rfl
  rw [DEFAULT_REWRITER.rewrite, remove_empty_typing_dict,
    sealed_config_dict _ _ hs, sealed_large_union H 5 _ _ hs, sealed_generator_pass _ _ hs]

/-- The standard pipeline is idempotent on every inference result: the
types `get_type` constructs are, at top level, leaves, sealed builtins
aliases, `typing.Dict` aliases (which one pipeline run converts into sealed
builtins `dict` aliases), or anonymous TypedDicts (which every pass rebuilds
field-wise, the fields again being inference results). -/
theorem pipeline_idem : ∀ (gfuel : Nat) (cap : Option Nat) (v : Value) (H : Hier)
    (pfuel : Nat),
    DEFAULT_REWRITER.rewrite H pfuel
        (DEFAULT_REWRITER.rewrite H pfuel (get_type gfuel cap v))
      = DEFAULT_REWRITER.rewrite H pfuel (get_type gfuel cap v) := by
  intro gfuel
  induction gfuel with
  | zero =>
      intro cap v H pfuel
      have hs := sealed_pipeline H pfuel (get_type 0 cap v) rfl
      rw [hs, hs]
  | succ gfuel ih =>
      intro cap v H pfuel
      cases v with
      | vNone =>
          have hs := sealed_pipeline H pfuel (get_type (gfuel+1) cap .vNone) rfl
          rw [hs, hs]
      | vInt n =>
          have hs := sealed_pipeline H pfuel (get_type (gfuel+1) cap (.vInt n)) rfl
          rw [hs, hs]
      | vStr s =>
          have hs := sealed_pipeline H pfuel (get_type (gfuel+1) cap (.vStr s)) rfl
          rw [hs, hs]
      | vList xs =>
          have hs := sealed_pipeline H pfuel (get_type (gfuel+1) cap (.vList xs)) rfl
          rw [hs, hs]
      | vSet xs =>
          have hs := sealed_pipeline H pfuel (get_type (gfuel+1) cap (.vSet xs)) rfl
          rw [hs, hs]
      | vTuple xs =>
          have hs := sealed_pipeline H pfuel (get_type (gfuel+1) cap (.vTuple xs)) rfl
          rw [hs, hs]
      | vDict pairs =>
          cases pfuel with
          | zero => rfl
          | succ pf =>
              rw [get_type_vDict, get_dict_type]
              by_cases he : pairs.isEmpty = true
              · simp only [he, if_true]
                rw [pipeline_typing_dict]
                exact sealed_pipeline H (pf+1) _ rfl
              · simp only [he, Bool.false_eq_true, if_false]
                by_cases hstr : (pairs.all (fun p => p.1.isStr)
                    && dict_fits cap pairs.length) = true
                · simp only [hstr, if_true, make_typed_dict]
                  rw [pipeline_record, pipeline_record]
                  simp only [List.map_nil, List.map_map]
                  congr 1
                  apply List.map_congr_left
                  intro p hp
                  show (p.1.strVal, DEFAULT_REWRITER.rewrite H pf
                        (DEFAULT_REWRITER.rewrite H pf (get_type gfuel cap p.2)))
                      = (p.1.strVal, DEFAULT_REWRITER.rewrite H pf (get_type gfuel cap p.2))
                  rw [ih cap p.2 H pf]
                · simp only [hstr, Bool.false_eq_true, if_false]
                  rw [pipeline_typing_dict]
                  exact sealed_pipeline H (pf+1) _ rfl

end Mod

/-! ## Claim C9: pipeline idempotence -/

/-- Claim C9: for every type reachable from value inference — the result of
`get_type` at any value, cap and fuel — applying the standard pipeline
(Remove-Empty-Containers, then Collapse-Same-Key Dicts, then
Truncate-Large-Union, then Simplify-Generator, each exactly once in that
order) twice yields the same result as applying it once.  Stated over the
module-faithful embedding `Mod`: inference emits either leaves, sealed
non-`typing` container aliases that `_rewrite_container`'s module check
returns unchanged, `typing.Dict` aliases that a single run converts into
sealed builtins `dict` aliases, or anonymous TypedDicts whose fields are
again inference results; a second run therefore changes nothing. -/
theorem c9_pipeline_idempotent (H : Hier) (gfuel pfuel : Nat) (cap : Option Nat)
    (v : Value) :
    Mod.DEFAULT_REWRITER.rewrite H pfuel
        (Mod.DEFAULT_REWRITER.rewrite H pfuel (Mod.get_type gfuel cap v))
      = Mod.DEFAULT_REWRITER.rewrite H pfuel (Mod.get_type gfuel cap v) :=
  Mod.pipeline_idem gfuel cap v H pfuel

/-- Claim C9, witness: the pipeline applied twice to the inferred type of the
runtime value `[[{1: {2: 3}}], [{1: {2: "x"}}]]` — whose nested same-key
`Dict` union sits below a builtins `list` alias that the module check seals —
equals the pipeline applied once. -/
theorem c9_witness :
    Mod.DEFAULT_REWRITER.rewrite trivH 30
        (Mod.DEFAULT_REWRITER.rewrite trivH 30 (Mod.get_type 30 (some 10) c9_value))
      = Mod.DEFAULT_REWRITER.rewrite trivH 30 (Mod.get_type 30 (some 10) c9_value) :=
  c9_pipeline_idempotent trivH 30 30 (some 10) c9_value

